import Mathlib

/-!
Verification of the peakdet signal-feature extraction and provenance engine.

The development shallowly embeds the relevant parts of the repository:
`utils.check_troughs`, `utils.get_extrema`, the operations
`filter_physio` / `peakfind_physio` / `delete_peaks` / `reject_peaks` /
`add_peaks` (src/peakdet/operations.py), the editor's `undo`
(src/peakdet/editor.py) and the replay interpreter `load_history`
(src/peakdet/io.py).  Samples are rationals (the float numerics of the
source are exact on the inputs considered), index arrays are lists of
naturals, and fallible operations return `Except`.

The modern `Physio` container class, the `make_operation` logging wrapper
and the modern `check_physio` / `new_physio_like` helpers are not present
under src/ (only an older class hierarchy is); where they decide behavior
they are modelled from the spec, and each such definition says so in its
doc comment.
-/

set_option maxRecDepth 8000

deriving instance DecidableEq for Except

namespace Peakdet

/-- First-occurrence index of value `a` in a list; models the first entry of
numpy's `np.argwhere(x == a)` (0 when `a` is absent, a case the source never
reaches). -/
def firstIdxOf (a : ℚ) : List ℚ → ℕ
  | [] => 0
  | x :: xs => if x = a then 0 else firstIdxOf a xs + 1

/-- Minimum value of a list of rationals; models `np.min` of a nonempty
array (0 for the empty array, on which numpy raises instead). -/
def listMin : List ℚ → ℚ
  | [] => 0
  | x :: xs => xs.foldl min x

/-- Index of the first occurrence of the minimum: models
`np.argwhere(dp == dp.min())[0]` in `check_troughs`. -/
def firstMinIdx (l : List ℚ) : ℕ := firstIdxOf (listMin l) l

/-- Python slice `data[p:q]` with the usual clamping. -/
def pySlice (data : List ℚ) (p q : ℕ) : List ℚ := (data.drop p).take (q - p)

/-- Ascending sort of rationals.  numpy's sorts are modelled by the stable
`insertionSort`, which is extensionally the sort numpy computes. -/
def npSortQ (l : List ℚ) : List ℚ := List.insertionSort (fun a b => a ≤ b) l

/-- Ascending sort of index arrays. -/
def npSortN (l : List ℕ) : List ℕ := List.insertionSort (fun a b => a ≤ b) l

/-- `np.percentile(data, q)` with the default linear interpolation: the value
at fractional position `q / 100 * (n - 1)` of the sorted data. -/
def percentile (data : List ℚ) (q : ℚ) : ℚ :=
  let s := npSortQ data
  let n := s.length
  let pos : ℚ := q * ((n : ℚ) - 1) / 100
  let lo : ℕ := (⌊pos⌋).toNat
  let frac : ℚ := pos - (lo : ℚ)
  if lo + 1 < n then s.getD lo 0 + frac * (s.getD (lo + 1) 0 - s.getD lo 0)
  else s.getD lo 0

/-- `np.searchsorted(arr, v)` with the default side 'left': the number of
entries below `v`.  This equals numpy's binary search whenever `arr` is
sorted, which holds at every call site considered. -/
def searchsorted (arr : List ℕ) (v : ℕ) : ℕ := arr.countP (fun y => decide (y < v))

/-- `np.setdiff1d(a, b)`: the sorted unique values of `a` not contained in
`b`. -/
def setdiff1d (a b : List ℕ) : List ℕ :=
  (npSortN (a.filter (fun x => decide (¬ x ∈ b)))).dedup

/-- The insertion loop of `np.insert` once the (position, value) pairs have
been stably ordered by position: the j-th processed pair is inserted at its
recorded position shifted by the j earlier insertions. -/
def npInsertGo : List ℕ → List (ℕ × ℕ) → ℕ → List ℕ
  | arr, [], _ => arr
  | arr, (p, v) :: rest, k => npInsertGo (List.insertIdx (p + k) v arr) rest (k + 1)

/-- `np.insert(arr, positions, values)` with array arguments: numpy stably
sorts the requested positions (mergesort) and inserts each value at its
position offset by the number of earlier insertions. -/
def npInsert (arr : List ℕ) (positions values : List ℕ) : List ℕ :=
  npInsertGo arr (List.insertionSort (fun a b => a.1 ≤ b.1) (positions.zip values)) 0

/-- `np.sign` on rationals. -/
def npSign (x : ℚ) : ℤ := if x < 0 then -1 else if x = 0 then 0 else 1

/-- `np.diff` of a rational array. -/
def npDiffQ (l : List ℚ) : List ℚ := List.zipWith (fun a b => b - a) l (l.drop 1)

/-- `np.diff` of an integer trend array. -/
def npDiffZ (l : List ℤ) : List ℤ := List.zipWith (fun a b => b - a) l (l.drop 1)

/-- `np.diff` of an index array, as integers. -/
def npDiffN (l : List ℕ) : List ℤ :=
  List.zipWith (fun a b => (b : ℤ) - (a : ℤ)) l (l.drop 1)

/-- `np.diff(locs).mean()`: `none` when `locs` has fewer than two entries, the
case where numpy's mean of an empty array is NaN. -/
def diffMean (locs : List ℕ) : Option ℚ :=
  let d := npDiffN locs
  if d.length = 0 then none
  else some ((d.map (fun z => (z : ℚ))).sum / (d.length : ℚ))

/-- The failure modes of the embedded operations.  In the source all of the
validation failures are `ValueError`s, the replay failures are
`AttributeError` (unknown name) and `FileNotFoundError` (missing source);
the constructor records which check fired. -/
inductive PDErr where
  | invalidThreshold
  | missingFs
  | badMethod
  | badArity
  | nyquist
  | butterCritical
  | scipyDistance
  | nanSpacing
  | loadFailed
  | fileNotFound (msg : String)
  | unknownOperation (opname : String)
  | unmodelled (opname : String)
  | badCall
deriving DecidableEq, Repr

/-- The zero-slope fix of `get_extrema` (src/peakdet/utils.py lines 147-151):
every zero entry of the sign-of-slope array, scanned from the right, becomes
+1 when the following entry (clamped to the last index) is nonnegative and
-1 otherwise. -/
def fixFlatTrend (trend : List ℤ) : List ℤ :=
  let idx := (List.range trend.length).filter (fun i => decide (trend.getD i 0 = 0))
  idx.reverse.foldl
    (fun tr i =>
      let j := min (i + 1) (tr.length - 1)
      tr.set i (if 0 ≤ tr.getD j 0 then 1 else -1))
    trend

/-- `utils.get_extrema` (src/peakdet/utils.py lines 115-155): slope-sign
change detection intersected with an amplitude threshold of
`thresh * (percentile 95 - percentile 5)` (peaks) or its mirror (troughs). -/
def ampCandidates (data : List ℚ) (peaks : Bool) (thresh : ℚ) : List ℕ :=
  if peaks then
    (List.range data.length).filter (fun i =>
      decide (thresh * (percentile data 95 - percentile data 5) < data.getD i 0))
  else
    (List.range data.length).filter (fun i =>
      decide (data.getD i 0 < thresh * (percentile data 5 - percentile data 95)))

/-- The slope-sign-change candidates of `get_extrema`: indices where the
zero-fixed trend drops by 2 (peaks) or rises by 2 (troughs), shifted by
one. -/
def slopeCandidates (data : List ℚ) (peaks : Bool) : List ℕ :=
  ((List.range ((fixFlatTrend ((npDiffQ data).map npSign)).length - 1)).filter
    (fun i =>
      decide ((fixFlatTrend ((npDiffQ data).map npSign)).getD (i + 1) 0 -
        (fixFlatTrend ((npDiffQ data).map npSign)).getD i 0 =
        (if peaks then (-2 : ℤ) else 2)))).map (fun i => i + 1)

def get_extrema (data : List ℚ) (peaks : Bool) (thresh : ℚ) : Except PDErr (List ℕ) :=
  if thresh < 0 ∨ 1 < thresh then Except.error PDErr.invalidThreshold
  else
    Except.ok ((ampCandidates data peaks thresh).filter
      (fun i => decide (i ∈ slopeCandidates data peaks)))

/-- The plateau scan of scipy's `_local_maxima_1d`: first index at or after
`j` that leaves the plateau of value `v` (bounded by `iMax`). -/
def plateauEnd (x : List ℚ) (v : ℚ) (iMax : ℕ) : ℕ → ℕ → ℕ
  | j, 0 => j
  | j, fuel + 1 =>
    if j < iMax ∧ x.getD j 0 = v then plateauEnd x v iMax (j + 1) fuel else j

/-- The main loop of scipy's `_local_maxima_1d`: strictly rising edge, plateau
scan, strictly falling edge, midpoint of the plateau reported. -/
def localMaximaGo (x : List ℚ) (iMax : ℕ) : ℕ → ℕ → List ℕ
  | _, 0 => []
  | i, fuel + 1 =>
    if i < iMax then
      if x.getD (i - 1) 0 < x.getD i 0 then
        let iAhead := plateauEnd x (x.getD i 0) iMax (i + 1) (x.length + 1)
        if x.getD iAhead 0 < x.getD i 0 then
          ((i + (iAhead - 1)) / 2) :: localMaximaGo x iMax (iAhead + 1) fuel
        else localMaximaGo x iMax (i + 1) fuel
      else localMaximaGo x iMax (i + 1) fuel
    else []

/-- scipy `_local_maxima_1d(x)`: interior local maxima with plateau
handling. -/
def localMaxima (x : List ℚ) : List ℕ := localMaximaGo x (x.length - 1) 1 (x.length + 1)

/-- The leftward clearing loop of scipy's `_select_by_peak_distance`. -/
def clearLeftGo (pk : List ℕ) (dc : ℤ) (j : ℕ) : List Bool → ℕ → ℕ → List Bool
  | keep, _, 0 => keep
  | keep, k, fuel + 1 =>
    if ((pk.getD j 0 : ℤ) - (pk.getD k 0 : ℤ)) < dc then
      let keep1 := keep.set k false
      if k = 0 then keep1 else clearLeftGo pk dc j keep1 (k - 1) fuel
    else keep

/-- The rightward clearing loop of scipy's `_select_by_peak_distance`. -/
def clearRightGo (pk : List ℕ) (dc : ℤ) (j n : ℕ) : List Bool → ℕ → ℕ → List Bool
  | keep, _, 0 => keep
  | keep, k, fuel + 1 =>
    if k < n ∧ ((pk.getD k 0 : ℤ) - (pk.getD j 0 : ℤ)) < dc then
      clearRightGo pk dc j n (keep.set k false) (k + 1) fuel
    else keep

/-- One iteration of `_select_by_peak_distance`: if the peak at `j` is still
kept, clear every kept neighbor closer than the (ceiled) distance. -/
def selectStep (pk : List ℕ) (dc : ℤ) (n : ℕ) (keep : List Bool) (j : ℕ) : List Bool :=
  if keep.getD j true = false then keep
  else
    let keep1 := if j = 0 then keep else clearLeftGo pk dc j keep (j - 1) j
    clearRightGo pk dc j n keep1 (j + 1) n

/-- scipy `_select_by_peak_distance(peaks, priority, distance)`: peaks are
visited in decreasing priority and their too-close neighbors discarded.
numpy's argsort leaves the order of equal priorities unspecified; the stable
order is used here, and no theorem below depends on a tie. -/
def selectByPeakDistance (pk : List ℕ) (priority : List ℚ) (distance : ℚ) : List Bool :=
  let n := pk.length
  let order :=
    List.insertionSort (fun a b => priority.getD a 0 ≤ priority.getD b 0) (List.range n)
  let dc : ℤ := ⌈distance⌉
  (order.reverse).foldl (selectStep pk dc n) (List.replicate n true)

/-- Keep the entries of `l` whose mask bit is set. -/
def maskKeep (l : List ℕ) (keep : List Bool) : List ℕ :=
  ((l.zip keep).filter (fun pv => pv.2)).map (fun pv => pv.1)

/-- `scipy.signal.find_peaks(x, distance, height)` as called by
`peakfind_physio`: local maxima, then the height filter (inclusive, as in
scipy), then distance selection.  scipy rejects a distance below 1. -/
def find_peaks_scipy (x : List ℚ) (distance : ℚ) (height : ℚ) :
    Except PDErr (List ℕ × List ℚ) :=
  if distance < 1 then Except.error PDErr.scipyDistance
  else
    let locs0 := localMaxima x
    let locs1 := locs0.filter (fun p => decide (height ≤ x.getD p 0))
    let keep := selectByPeakDistance locs1 (locs1.map (fun p => x.getD p 0)) distance
    let locs := maskKeep locs1 keep
    Except.ok (locs, locs.map (fun p => x.getD p 0))

/-- An entry of the operation log: the wrapped function's name and its bound
arguments (utils._get_call captures every argument of the call except the
record itself; array values are stored as plain lists). -/
inductive HArgs where
  | loadA (source : String) (fs : Option ℚ)
  | filterA (cutoffs : List ℚ) (method : String) (order : ℕ)
  | peakfindA (thresh : ℚ) (dist : Option ℚ)
  | removeA (remove : List ℕ)
  | addA (idx : ℕ)
deriving DecidableEq, Repr

/-- One `(operation_name, argument_mapping)` pair of the log. -/
structure HEntry where
  opname : String
  args : HArgs
deriving DecidableEq, Repr

/-- Modelled from the spec: the WaveformRecord entity.  The modern `Physio`
class (sample array, sampling rate, `_metadata` dict with `peaks`, `reject`
and `troughs` index arrays, and the operation log `_history`) is absent from
src/, which holds only an older class hierarchy; its shape is taken from the
spec's data model.  A `none` sampling rate models the NaN "unknown" value. -/
structure Physio where
  data : List ℚ
  fs : Option ℚ
  peaks : List ℕ
  reject : List ℕ
  troughs : List ℕ
  history : List HEntry
deriving DecidableEq, Repr

/-- Modelled from the spec: the missing `Physio.peaks` property, the
"effective peaks" every operation consumes: `peaks` minus `reject`,
returned sorted with duplicates removed. -/
def effectivePeaks (p : Physio) : List ℕ :=
  (npSortN (p.peaks.filter (fun i => decide (¬ i ∈ p.reject)))).dedup

/-- `utils.check_troughs(data, peaks, troughs)` (src/peakdet/utils.py lines
248-281): one trough per consecutive peak pair; a candidate trough strictly
between the pair is kept (the first, when several), otherwise the first
index of the minimum of `data[peaks[f] : peaks[f+1]]`.  The source indexes
`np.zeros(peaks.size - 1)`, so fewer than one peak raises in numpy; the
embedding returns `[]` there. -/
def troughFor (data : List ℚ) (peaks : List ℕ) (troughs : List ℕ) (f : ℕ) : ℕ :=
  match troughs.filter (fun t => decide (peaks.getD f 0 < t ∧ t < peaks.getD (f + 1) 0)) with
  | [] => peaks.getD f 0 + firstMinIdx (pySlice data (peaks.getD f 0) (peaks.getD (f + 1) 0))
  | t :: _ => t

/-- The loop of `check_troughs`, one pair of consecutive peaks per entry. -/
def check_troughs (data : List ℚ) (peaks : List ℕ) (troughs : List ℕ) : List ℕ :=
  (List.range (peaks.length - 1)).map (troughFor data peaks troughs)

/-- The filter methods `filter_physio` accepts. -/
def valid_methods : List String := ["lowpass", "highpass", "bandpass", "bandstop"]

/-- Modelled from the spec: `scipy.signal.filtfilt` zero-phase filtering is
an external collaborator; only its contract of returning an output of the
input's length is modelled (its numerical content plays no role in any
claim below). -/
def filtfilt (x : List ℚ) : List ℚ := x

/-- `operations.filter_physio(data, cutoffs, method, order)` (lines 12-60):
sampling-rate check, method check, cutoff-arity checks, the Nyquist check
`any(cutoffs / (fs * 0.5) > 1)`, then the filter design and application.
The design step `scipy.signal.butter` is external; its documented
validation (normalized critical frequencies strictly between 0 and 1) is
modelled as the `butterCritical` failure. -/
def filter_physio (p : Physio) (cutoffs : List ℚ) (method : String) (order : ℕ) :
    Except PDErr Physio :=
  match p.fs with
  | none => Except.error PDErr.missingFs
  | some fs =>
    if ¬ method ∈ valid_methods then Except.error PDErr.badMethod
    else if (method = "lowpass" ∨ method = "highpass") ∧ cutoffs.length ≠ 1 then
      Except.error PDErr.badArity
    else if (method = "bandpass" ∨ method = "bandstop") ∧ cutoffs.length ≠ 2 then
      Except.error PDErr.badArity
    else if (cutoffs.map (fun c => c / (fs * (1 / 2)))).any (fun w => decide (1 < w)) then
      Except.error PDErr.nyquist
    else if ¬ ((cutoffs.map (fun c => c / (fs * (1 / 2)))).all
        (fun w => decide (0 < w ∧ w < 1))) then
      Except.error PDErr.butterCritical
    else
      Except.ok { p with
        data := filtfilt p.data,
        history := p.history ++ [⟨"filter_physio", HArgs.filterA cutoffs method order⟩] }

/-- The coarse-pass amplitude threshold of `peakfind_physio` (line 130):
`np.diff(np.percentile(data, [5, 95])) * thresh`. -/
def coarseThresh (data : List ℚ) (thresh : ℚ) : ℚ :=
  (percentile data 95 - percentile data 5) * thresh

/-- `operations.peakfind_physio(data, thresh, dist)` (lines 103-141): coarse
`find_peaks` at distance `fs // 4` (or the given `dist`), then a second pass
at half the mean coarse spacing with the 1st percentile of the coarse peak
heights, then trough detection from the detected peaks.  When fewer than two
coarse candidates survive, the source computes `np.diff(locs).mean() // 2`
as NaN and hands it to scipy; that float path is not modelled and the
embedding stops with `nanSpacing` there. -/
def coarseDist (p : Physio) (dist : Option ℚ) : ℚ :=
  match dist with
  | none => ((⌊(p.fs.getD 0) / 4⌋ : ℤ) : ℚ)
  | some d => d

/-- The body of `operations.peakfind_physio` as documented above. -/
def peakfind_physio (p : Physio) (thresh : ℚ) (dist : Option ℚ) : Except PDErr Physio :=
  if dist = none ∧ p.fs = none then Except.error PDErr.missingFs
  else
    match find_peaks_scipy p.data (coarseDist p dist) (coarseThresh p.data thresh) with
    | Except.error e => Except.error e
    | Except.ok (locs, hts) =>
      match diffMean locs with
      | none => Except.error PDErr.nanSpacing
      | some m =>
        match find_peaks_scipy p.data ((⌊m / 2⌋ : ℤ) : ℚ) (percentile hts 1) with
        | Except.error e => Except.error e
        | Except.ok (locs2, _) =>
          let p1 : Physio := { p with peaks := locs2 }
          Except.ok { p1 with
            troughs := check_troughs p1.data (effectivePeaks p1) [],
            history := p.history ++ [⟨"peakfind_physio", HArgs.peakfindA thresh dist⟩] }

/-- `operations.delete_peaks(data, remove)` (lines 144-163): removes the
indices from the `peaks` metadata with `np.setdiff1d` and re-runs
`check_troughs` over the effective peaks with the current troughs. -/
def delete_peaks (p : Physio) (remove : List ℕ) : Physio :=
  let p1 : Physio := { p with peaks := setdiff1d p.peaks remove }
  { p1 with
    troughs := check_troughs p1.data (effectivePeaks p1) p1.troughs,
    history := p.history ++ [⟨"delete_peaks", HArgs.removeA remove⟩] }

/-- `operations.reject_peaks(data, remove)` (lines 166-185): appends the
indices to the `reject` metadata and re-runs `check_troughs` over the
effective peaks with the current troughs. -/
def reject_peaks (p : Physio) (remove : List ℕ) : Physio :=
  let p1 : Physio := { p with reject := p.reject ++ remove }
  { p1 with
    troughs := check_troughs p1.data (effectivePeaks p1) p1.troughs,
    history := p.history ++ [⟨"reject_peaks", HArgs.removeA remove⟩] }

/-- `operations.add_peaks(data, add)` (lines 188-208): inserts the index at
its `np.searchsorted` position in the `peaks` metadata and re-runs
`check_troughs` from the peaks alone. -/
def add_peaks (p : Physio) (idx : ℕ) : Physio :=
  let p1 : Physio := { p with peaks := List.insertIdx (searchsorted p.peaks idx) idx p.peaks }
  { p1 with
    troughs := check_troughs p1.data (effectivePeaks p1) [],
    history := p.history ++ [⟨"add_peaks", HArgs.addA idx⟩] }

/-- The history names `editor._PhysioEditor.undo` treats as undoable. -/
def relevantOps : List String := ["reject_peaks", "delete_peaks", "add_peaks"]

/-- `editor._PhysioEditor.undo` (src/peakdet/editor.py lines 180-211): when
the last log entry is a manual correction it is popped and inverted
(reject: `np.setdiff1d` from `reject`; delete: `np.insert` back at the
`np.searchsorted` positions; add: `np.delete` at the `np.searchsorted`
position), then `check_troughs` is re-run; any other last entry is left
alone.  The source indexes `history[-1]`, so an empty history raises
IndexError in Python; the embedding returns the record unchanged there. -/
def undo (p : Physio) : Physio :=
  match p.history.getLast? with
  | none => p
  | some e =>
    if ¬ e.opname ∈ relevantOps then p
    else
      let p0 : Physio := { p with history := p.history.dropLast }
      let p1 : Physio :=
        if e.opname = "reject_peaks" then
          match e.args with
          | HArgs.removeA rm => { p0 with reject := setdiff1d p0.reject rm }
          | _ => p0
        else if e.opname = "delete_peaks" then
          match e.args with
          | HArgs.removeA rm =>
            { p0 with peaks := npInsert p0.peaks (rm.map (searchsorted p0.peaks)) rm }
          | _ => p0
        else
          match e.args with
          | HArgs.addA a => { p0 with peaks := (p0.peaks).eraseIdx (searchsorted p0.peaks a) }
          | _ => p0
      { p1 with troughs := check_troughs p1.data (effectivePeaks p1) p1.troughs }

/-- `io.load_physio` restricted to its plain-text-file branch, the one the
replay contract exercises: the file's samples become the record and the one
log entry records the loader and its arguments.  `fsys` models the readable
files as an association list from path to contents; `dtype`, `history` and
`allow_pickle` stay at their defaults. -/
def load_physio (fsys : List (String × List ℚ)) (source : String) (fs : Option ℚ) :
    Except PDErr Physio :=
  match fsys.find? (fun kv => decide (kv.1 = source)) with
  | some kv =>
    Except.ok { data := kv.2, fs := fs, peaks := [], reject := [], troughs := [],
                history := [⟨"load_physio", HArgs.loadA source fs⟩] }
  | none => Except.error PDErr.loadFailed

/-- The names `getattr(peakdet, ...)` resolves in this snapshot: the imports
of src/peakdet/__init__.py.  Note that `add_peaks` is not among them. -/
def registeredNames : List String :=
  ["delete_peaks", "edit_physio", "filter_physio", "interpolate_physio",
   "peakfind_physio", "plot_physio", "reject_peaks", "load_physio", "save_physio",
   "load_history", "save_history", "load_rtpeaks", "Physio", "HRV"]

/-- Character-list test that `needle` begins `hay`. -/
def startsWithChars : List Char → List Char → Bool
  | _, [] => true
  | [], _ :: _ => false
  | h :: hs, n :: ns => h == n && startsWithChars hs ns

/-- Character-list substring test. -/
def charsContain : List Char → List Char → Bool
  | [], _ => false
  | c :: cs, needle => startsWithChars (c :: cs) needle || charsContain cs needle

/-- The replay loop's test `'load' in func`. -/
def nameHasLoad (s : String) : Bool := charsContain s.toList ['l', 'o', 'a', 'd']

/-- The test `kwargs['data'].startswith('/')` of `load_history`. -/
def startsWithSlash (s : String) : Bool :=
  match s.toList with
  | '/' :: _ => true
  | _ => false

/-- The message `load_history` raises for an unresolved absolute source
path. -/
def absPathMsg : String :=
  "Perhaps you are trying to load a history file that was generated with an absolute path?"

/-- The message `load_history` raises for an unresolved relative source
path. -/
def diffDirMsg : String :=
  "Perhaps you are trying to load a history file that was generated from a different directory?"

/-- Replay dispatch of one non-loader entry:
`getattr(peakdet, func)(data, **kwargs)`.  Registered names outside the
modelled core map to `unmodelled`; an argument mapping that does not fit the
function's signature is Python's TypeError, `badCall`. -/
def applyNamed (d : Physio) (e : HEntry) : Except PDErr Physio :=
  if e.opname = "filter_physio" then
    match e.args with
    | HArgs.filterA c m o => filter_physio d c m o
    | _ => Except.error PDErr.badCall
  else if e.opname = "peakfind_physio" then
    match e.args with
    | HArgs.peakfindA t dt => peakfind_physio d t dt
    | _ => Except.error PDErr.badCall
  else if e.opname = "delete_peaks" then
    match e.args with
    | HArgs.removeA rm => Except.ok (delete_peaks d rm)
    | _ => Except.error PDErr.badCall
  else if e.opname = "reject_peaks" then
    match e.args with
    | HArgs.removeA rm => Except.ok (reject_peaks d rm)
    | _ => Except.error PDErr.badCall
  else Except.error (PDErr.unmodelled e.opname)

/-- One iteration of the replay loop of `io.load_history` (lines 150-174):
a loader entry (name containing 'load', no record yet) first checks that its
source path resolves, raising the cause-distinguishing FileNotFoundError
otherwise; every entry then resolves through the package namespace, raising
AttributeError (`unknownOperation`) for a name it does not export. -/
def loadStep (fsys : List (String × List ℚ)) (cur : Option Physio) (e : HEntry) :
    Except PDErr (Option Physio) :=
  if nameHasLoad e.opname ∧ cur = none then
    match e.args with
    | HArgs.loadA src fs =>
      if fsys.all (fun kv => decide (kv.1 ≠ src)) then
        if startsWithSlash src then Except.error (PDErr.fileNotFound absPathMsg)
        else Except.error (PDErr.fileNotFound diffDirMsg)
      else if ¬ e.opname ∈ registeredNames then
        Except.error (PDErr.unknownOperation e.opname)
      else if e.opname = "load_physio" then (load_physio fsys src fs).map some
      else Except.error (PDErr.unmodelled e.opname)
    | _ => Except.error PDErr.badCall
  else if ¬ e.opname ∈ registeredNames then Except.error (PDErr.unknownOperation e.opname)
  else
    match cur with
    | none => Except.error PDErr.badCall
    | some d => (applyNamed d e).map some

/-- The replay fold of `io.load_history`. -/
def loadHistGo (fsys : List (String × List ℚ)) :
    Option Physio → List HEntry → Except PDErr (Option Physio)
  | cur, [] => Except.ok cur
  | cur, e :: rest =>
    match loadStep fsys cur e with
    | Except.error err => Except.error err
    | Except.ok c2 => loadHistGo fsys c2 rest

/-- `io.load_history(file)` (src/peakdet/io.py lines 124-174) on an already
parsed log: replays every entry in order against nothing but the file
system; any failure aborts the whole replay.  An empty log returns `none`,
as the source returns its unset `data`. -/
def load_history (fsys : List (String × List ℚ)) (entries : List HEntry) :
    Except PDErr (Option Physio) :=
  loadHistGo fsys none entries

/-- The detector and correction operations of claim C1, applied to a
record. -/
inductive COp where
  | peakfindO (thresh : ℚ) (dist : Option ℚ)
  | deleteO (remove : List ℕ)
  | rejectO (remove : List ℕ)
  | addO (idx : ℕ)
  | undoO
deriving DecidableEq, Repr

/-- Application of one detector or correction operation. -/
def applyC : COp → Physio → Except PDErr Physio
  | COp.peakfindO t d, p => peakfind_physio p t d
  | COp.deleteO rm, p => Except.ok (delete_peaks p rm)
  | COp.rejectO rm, p => Except.ok (reject_peaks p rm)
  | COp.addO i, p => Except.ok (add_peaks p i)
  | COp.undoO, p => Except.ok (undo p)

/-- The candidate troughs each operation hands to `check_troughs`:
`peakfind_physio` and `add_peaks` call it with the peaks alone, the others
pass the record's current troughs. -/
def candTroughs : COp → Physio → List ℕ
  | COp.peakfindO _ _, _ => []
  | COp.addO _, _ => []
  | _, p => p.troughs

/-- The registered transformations a record can be built from for the replay
claim (the operations of the package namespace that the model covers). -/
inductive BuildOp where
  | filterB (cutoffs : List ℚ) (method : String) (order : ℕ)
  | peakfindB (thresh : ℚ) (dist : Option ℚ)
  | deleteB (remove : List ℕ)
  | rejectB (remove : List ℕ)
deriving DecidableEq, Repr

/-- Application of one registered transformation. -/
def applyBuild : BuildOp → Physio → Except PDErr Physio
  | BuildOp.filterB c m o, p => filter_physio p c m o
  | BuildOp.peakfindB t d, p => peakfind_physio p t d
  | BuildOp.deleteB rm, p => Except.ok (delete_peaks p rm)
  | BuildOp.rejectB rm, p => Except.ok (reject_peaks p rm)

/-- Sequential application of registered transformations. -/
def buildGo : Physio → List BuildOp → Except PDErr Physio
  | p, [] => Except.ok p
  | p, op :: rest =>
    match applyBuild op p with
    | Except.error e => Except.error e
    | Except.ok q => buildGo q rest

/-- A record produced purely by registered operations: a loader entry
followed by transformations. -/
def buildRecord (fsys : List (String × List ℚ)) (source : String) (fs : Option ℚ)
    (ops : List BuildOp) : Except PDErr Physio :=
  match load_physio fsys source fs with
  | Except.error e => Except.error e
  | Except.ok p => buildGo p ops

/-- The log entry each registered transformation records: the wrapped
function's name with its bound arguments, exactly what `make_operation`
appends. -/
def buildEntry : BuildOp → HEntry
  | BuildOp.filterB c m o => ⟨"filter_physio", HArgs.filterA c m o⟩
  | BuildOp.peakfindB t d => ⟨"peakfind_physio", HArgs.peakfindA t d⟩
  | BuildOp.deleteB rm => ⟨"delete_peaks", HArgs.removeA rm⟩
  | BuildOp.rejectB rm => ⟨"reject_peaks", HArgs.removeA rm⟩

/-- The three manual corrections of the undo claim. -/
inductive EditOp where
  | rejectE (rm : List ℕ)
  | deleteE (rm : List ℕ)
  | insertE (idx : ℕ)
deriving DecidableEq, Repr

/-- Application of one manual correction. -/
def applyEdit : EditOp → Physio → Physio
  | EditOp.rejectE rm, p => reject_peaks p rm
  | EditOp.deleteE rm, p => delete_peaks p rm
  | EditOp.insertE i, p => add_peaks p i

/-- The argument sanity each correction needs for undo to be an exact
inverse: rejected indices fresh and given in increasing order, deleted
indices members of `peaks` in increasing order. -/
def editOk : EditOp → Physio → Prop
  | EditOp.rejectE rm, p => ∀ x ∈ rm, ¬ x ∈ p.reject
  | EditOp.deleteE rm, p =>
    List.Sorted (fun a b => a < b) rm ∧ ∀ x ∈ rm, x ∈ p.peaks
  | EditOp.insertE _, _ => True

/-- A concrete working record used by the claim witnesses and
counterexamples: five samples, peaks at 1 and 3, peak 1 already rejected,
the enforced trough at 2. -/
def sampleRecord : Physio :=
  { data := [0, 5, 0, 5, 0], fs := some 1, peaks := [1, 3], reject := [1],
    troughs := [2], history := [] }

/-- A concrete record sampled at 1000 Hz for the filtering claims. -/
def recordHz : Physio :=
  { data := [1, 2, 3, 4], fs := some 1000, peaks := [], reject := [],
    troughs := [], history := [] }

/-! ### List utilities -/

theorem getD_eq_get (l : List ℕ) (i : ℕ) (h : i < l.length) : l.getD i 0 = l.get ⟨i, h⟩ := by
  rw [List.getD_eq_getElem l 0 h, List.get_eq_getElem]

theorem foldl_min_le (xs : List ℚ) (x : ℚ) :
    (∀ y ∈ xs, xs.foldl min x ≤ y) ∧ xs.foldl min x ≤ x := by
  induction xs generalizing x with
  | nil => exact ⟨fun y hy => absurd hy (List.not_mem_nil y), le_refl x⟩
  | cons z zs ih =>
    have h := ih (min x z)
    refine ⟨?_, le_trans h.2 (min_le_left x z)⟩
    intro y hy
    rcases List.mem_cons.mp hy with h1 | h1
    · rw [List.foldl_cons, h1]
      exact le_trans h.2 (min_le_right x z)
    · exact h.1 y h1

theorem listMin_le (l : List ℚ) (y : ℚ) (hy : y ∈ l) : listMin l ≤ y := by
  cases l with
  | nil => cases hy
  | cons x xs =>
    rcases List.mem_cons.mp hy with h1 | h1
    · rw [listMin, h1]
      exact (foldl_min_le xs x).2
    · exact (foldl_min_le xs x).1 y h1

theorem foldl_min_mem (xs : List ℚ) (x : ℚ) : xs.foldl min x = x ∨ xs.foldl min x ∈ xs := by
  induction xs generalizing x with
  | nil => exact Or.inl rfl
  | cons z zs ih =>
    rw [List.foldl_cons]
    rcases ih (min x z) with h | h
    · rw [h]
      rcases le_total x z with hle | hle
      · exact Or.inl (min_eq_left hle)
      · exact Or.inr (by rw [min_eq_right hle]; exact List.mem_cons_self _ _)
    · exact Or.inr (List.mem_cons_of_mem _ h)

theorem listMin_mem (l : List ℚ) (h : l ≠ []) : listMin l ∈ l := by
  cases l with
  | nil => exact absurd rfl h
  | cons x xs =>
    rcases foldl_min_mem xs x with h1 | h1
    · rw [listMin, h1]; exact List.mem_cons_self _ _
    · rw [listMin]; exact List.mem_cons_of_mem _ h1

theorem firstIdxOf_lt_length (a : ℚ) : ∀ l : List ℚ, a ∈ l → firstIdxOf a l < l.length := by
  intro l
  induction l with
  | nil => intro h; cases h
  | cons x xs ih =>
    intro h
    rw [firstIdxOf]
    by_cases hx : x = a
    · simp [hx]
    · have hmem : a ∈ xs := by
        rcases List.mem_cons.mp h with h1 | h1
        · exact absurd h1.symm hx
        · exact h1
      rw [if_neg hx]
      simpa [Nat.succ_lt_succ_iff] using ih hmem

theorem firstIdxOf_getD (a : ℚ) : ∀ l : List ℚ, a ∈ l → l.getD (firstIdxOf a l) 0 = a := by
  intro l
  induction l with
  | nil => intro h; cases h
  | cons x xs ih =>
    intro h
    rw [firstIdxOf]
    by_cases hx : x = a
    · simp [hx]
    · have hmem : a ∈ xs := by
        rcases List.mem_cons.mp h with h1 | h1
        · exact absurd h1.symm hx
        · exact h1
      rw [if_neg hx]
      simpa using ih hmem

theorem firstIdxOf_first (a : ℚ) : ∀ (l : List ℚ) (j : ℕ),
    j < firstIdxOf a l → l.getD j 0 ≠ a := by
  intro l
  induction l with
  | nil => intro j hj; rw [firstIdxOf] at hj; cases hj
  | cons x xs ih =>
    intro j hj
    rw [firstIdxOf] at hj
    by_cases hx : x = a
    · rw [if_pos hx] at hj; cases hj
    · rw [if_neg hx] at hj
      cases j with
      | zero => simpa using hx
      | succ k => exact ih k (Nat.lt_of_succ_lt_succ hj)

theorem pySlice_length (data : List ℚ) (a b : ℕ) (hb : b ≤ data.length) :
    (pySlice data a b).length = b - a := by
  show ((data.drop a).take (b - a)).length = b - a
  rw [List.length_take, List.length_drop]
  omega

theorem pySlice_getD (data : List ℚ) (a b k : ℕ) (hb : b ≤ data.length) (hk : k < b - a) :
    (pySlice data a b).getD k 0 = data.getD (a + k) 0 := by
  have hk1 : k < ((data.drop a).take (b - a)).length := by
    rw [List.length_take, List.length_drop]; omega
  have hk2 : a + k < data.length := by omega
  show ((data.drop a).take (b - a)).getD k 0 = data.getD (a + k) 0
  rw [List.getD_eq_getElem _ 0 hk1, List.getD_eq_getElem _ 0 hk2]
  rw [List.getElem_take, List.getElem_drop]

theorem sorted_le_of_lt_nat {l : List ℕ} (h : List.Sorted (fun a b => a < b) l) :
    List.Sorted (fun a b => a ≤ b) l :=
  List.Pairwise.imp (fun hab => le_of_lt hab) h

theorem nodup_of_sorted_lt {l : List ℕ} (h : List.Sorted (fun a b => a < b) l) :
    l.Nodup :=
  List.Pairwise.imp (fun hab => ne_of_lt hab) h

theorem npSortN_dedup_eq_self {l : List ℕ} (h : List.Sorted (fun a b => a < b) l) :
    (npSortN l).dedup = l := by
  rw [npSortN, List.Sorted.insertionSort_eq (sorted_le_of_lt_nat h),
    List.Nodup.dedup (nodup_of_sorted_lt h)]

theorem sorted_lt_filter {l : List ℕ} (p : ℕ → Bool)
    (h : List.Sorted (fun a b => a < b) l) :
    List.Sorted (fun a b => a < b) (l.filter p) :=
  List.Pairwise.filter p h

theorem effectivePeaks_sorted (p : Physio) :
    List.Sorted (fun a b => a < b) (effectivePeaks p) := by
  have hsorted : List.Sorted (fun a b => a ≤ b)
      (npSortN (p.peaks.filter (fun i => decide (¬ i ∈ p.reject)))) :=
    List.sorted_insertionSort _ _
  have hnodup : ((npSortN (p.peaks.filter (fun i => decide (¬ i ∈ p.reject)))).dedup).Nodup :=
    List.nodup_dedup _
  have hsub : ((npSortN (p.peaks.filter (fun i => decide (¬ i ∈ p.reject)))).dedup).Sublist
      (npSortN (p.peaks.filter (fun i => decide (¬ i ∈ p.reject)))) :=
    List.dedup_sublist _
  exact List.Sorted.lt_of_le (List.Pairwise.sublist hsub hsorted) hnodup

theorem sorted_getD_lt {l : List ℕ} (h : List.Sorted (fun a b => a < b) l)
    (i j : ℕ) (hij : i < j) (hj : j < l.length) : l.getD i 0 < l.getD j 0 := by
  have hi : i < l.length := lt_trans hij hj
  rw [getD_eq_get l i hi, getD_eq_get l j hj]
  exact List.Sorted.get_strictMono h (by simpa using hij)

/-! ### The specification of check_troughs -/

theorem check_troughs_length (data : List ℚ) (pk tr : List ℕ) :
    (check_troughs data pk tr).length = pk.length - 1 := by
  rw [check_troughs, List.length_map, List.length_range]

theorem check_troughs_getD (data : List ℚ) (pk tr : List ℕ) (f : ℕ)
    (hf : f + 1 < pk.length) :
    (check_troughs data pk tr).getD f 0 = troughFor data pk tr f := by
  have hr : f < (List.range (pk.length - 1)).length := by
    rw [List.length_range]; omega
  have hm : f < ((List.range (pk.length - 1)).map (troughFor data pk tr)).length := by
    rw [List.length_map]; exact hr
  calc (check_troughs data pk tr).getD f 0
      = ((List.range (pk.length - 1)).map (troughFor data pk tr)).getD f 0 := rfl
    _ = troughFor data pk tr f := by
        rw [List.getD_eq_getElem _ 0 hm, List.getElem_map, List.getElem_range]

/-- The core behavior of `check_troughs` between one consecutive peak pair:
the result lies in `[p_f, p_(f+1))`, and when no candidate trough lies
strictly between the pair it is the first index attaining the minimum of the
samples over `[p_f, p_(f+1))`. -/
theorem check_troughs_spec (data : List ℚ) (pk tr : List ℕ)
    (hs : List.Sorted (fun a b => a < b) pk)
    (hb : ∀ i ∈ pk, i < data.length)
    (f : ℕ) (hf : f + 1 < pk.length) :
    (pk.getD f 0 ≤ (check_troughs data pk tr).getD f 0 ∧
      (check_troughs data pk tr).getD f 0 < pk.getD (f + 1) 0) ∧
    ((∀ c ∈ tr, ¬ (pk.getD f 0 < c ∧ c < pk.getD (f + 1) 0)) →
      (∀ j, pk.getD f 0 ≤ j → j < pk.getD (f + 1) 0 →
        data.getD ((check_troughs data pk tr).getD f 0) 0 ≤ data.getD j 0) ∧
      (∀ j, pk.getD f 0 ≤ j → j < (check_troughs data pk tr).getD f 0 →
        data.getD ((check_troughs data pk tr).getD f 0) 0 < data.getD j 0)) := by
  have hab : pk.getD f 0 < pk.getD (f + 1) 0 :=
    sorted_getD_lt hs f (f + 1) (Nat.lt_succ_self f) hf
  have hbmem : pk.getD (f + 1) 0 ∈ pk := by
    rw [getD_eq_get pk (f + 1) hf]; exact List.get_mem pk (f + 1) hf
  have hblen : pk.getD (f + 1) 0 ≤ data.length := le_of_lt (hb _ hbmem)
  set a := pk.getD f 0 with ha
  set b := pk.getD (f + 1) 0 with hbdef
  cases hcase : tr.filter (fun t => decide (a < t ∧ t < b)) with
  | cons t ts =>
    have ht : (check_troughs data pk tr).getD f 0 = t := by
      rw [check_troughs_getD data pk tr f hf, troughFor, ← ha, ← hbdef, hcase]
    have htmem : t ∈ tr.filter (fun t => decide (a < t ∧ t < b)) := by
      rw [hcase]; exact List.mem_cons_self _ _
    have hpred := List.of_mem_filter htmem
    have hpred2 : a < t ∧ t < b := of_decide_eq_true hpred
    have htin : t ∈ tr := List.mem_of_mem_filter htmem
    rw [ht]
    refine ⟨⟨le_of_lt hpred2.1, hpred2.2⟩, ?_⟩
    intro hnone
    exact absurd hpred2 (hnone t htin)
  | nil =>
    set dp := pySlice data a b with hdp
    have hdplen : dp.length = b - a := pySlice_length data a b hblen
    have hdpne : dp ≠ [] := by
      intro hnil
      rw [hnil] at hdplen
      simp at hdplen
      omega
    have ht : (check_troughs data pk tr).getD f 0 = a + firstMinIdx dp := by
      rw [check_troughs_getD data pk tr f hf, troughFor, ← ha, ← hbdef, hcase]
    have hmin_mem : listMin dp ∈ dp := listMin_mem dp hdpne
    have hidx_lt : firstMinIdx dp < dp.length := firstIdxOf_lt_length _ _ hmin_mem
    have hidx_lt2 : firstMinIdx dp < b - a := by rw [← hdplen]; exact hidx_lt
    have hval : dp.getD (firstMinIdx dp) 0 = listMin dp := firstIdxOf_getD _ _ hmin_mem
    have hslice : dp.getD (firstMinIdx dp) 0 = data.getD (a + firstMinIdx dp) 0 :=
      pySlice_getD data a b _ hblen hidx_lt2
    rw [ht]
    constructor
    · exact ⟨Nat.le_add_right a _, by omega⟩
    intro _
    constructor
    · intro j hj1 hj2
      have hjk : j - a < b - a := by omega
      have hjv : dp.getD (j - a) 0 = data.getD j 0 := by
        have := pySlice_getD data a b (j - a) hblen hjk
        rwa [Nat.add_sub_cancel' hj1] at this
      have hjmem : dp.getD (j - a) 0 ∈ dp := by
        have hlt : j - a < dp.length := by omega
        rw [List.getD_eq_getElem _ 0 hlt]
        exact List.getElem_mem hlt
      have hmle := listMin_le dp _ hjmem
      rw [hjv] at hmle
      rw [← hslice, hval]
      exact hmle
    · intro j hj1 hj2
      have hjk : j - a < firstMinIdx dp := by omega
      have hjk2 : j - a < b - a := by omega
      have hjv : dp.getD (j - a) 0 = data.getD j 0 := by
        have := pySlice_getD data a b (j - a) hblen hjk2
        rwa [Nat.add_sub_cancel' hj1] at this
      have hne : dp.getD (j - a) 0 ≠ listMin dp := firstIdxOf_first _ _ _ hjk
      have hjmem : dp.getD (j - a) 0 ∈ dp := by
        have hlt : j - a < dp.length := by omega
        rw [List.getD_eq_getElem _ 0 hlt]
        exact List.getElem_mem hlt
      have hge := listMin_le dp _ hjmem
      rw [← hslice, hval]
      rw [hjv] at hne hge
      exact lt_of_le_of_ne hge (by simpa [eq_comm] using hne)

/-! ### Every operation ends by re-running check_troughs -/

theorem peakfind_troughs (p q : Physio) (t : ℚ) (d : Option ℚ)
    (happ : peakfind_physio p t d = Except.ok q) :
    q.troughs = check_troughs q.data (effectivePeaks q) [] ∧ q.data = p.data := by
  rw [peakfind_physio] at happ
  split at happ
  · exact absurd happ (by simp)
  · split at happ
    · exact absurd happ (by simp)
    · split at happ
      · exact absurd happ (by simp)
      · split at happ
        · exact absurd happ (by simp)
        · cases happ
          exact ⟨rfl, rfl⟩

theorem applyC_troughs (op : COp) (p q : Physio) (happ : applyC op p = Except.ok q)
    (hundo : op = COp.undoO →
      ∃ e, p.history.getLast? = some e ∧ e.opname ∈ relevantOps) :
    q.troughs = check_troughs q.data (effectivePeaks q) (candTroughs op p) ∧
      q.data = p.data := by
  cases op with
  | peakfindO t d => exact peakfind_troughs p q t d happ
  | deleteO rm => cases happ; exact ⟨rfl, rfl⟩
  | rejectO rm => cases happ; exact ⟨rfl, rfl⟩
  | addO i => cases happ; exact ⟨rfl, rfl⟩
  | undoO =>
    obtain ⟨e, hlast, hrel⟩ := hundo rfl
    cases happ
    simp only [candTroughs, undo, hlast]
    rw [if_neg (not_not_intro hrel)]
    simp only [relevantOps, List.mem_cons, List.not_mem_nil, or_false] at hrel
    obtain ⟨nm, args⟩ := e
    simp only at hrel
    rcases hrel with h1 | h1 | h1
    · subst h1
      cases args <;> exact ⟨rfl, rfl⟩
    · subst h1
      cases args <;> exact ⟨rfl, rfl⟩
    · subst h1
      cases args <;> exact ⟨rfl, rfl⟩

/-- Claim C1 (amended): after any detector or correction operation that
re-establishes the troughs (all of peakfind_physio, delete_peaks,
reject_peaks, add_peaks, and undo when the last log entry is a correction),
if the resulting record has at least two effective peaks, all within the
sample range, then `troughs` holds exactly one index per consecutive
effective-peak pair, with `p[i] ≤ t < p[i+1]` (the source works on the
half-open slice `data[p[i] : p[i+1]]`, so the trough can land on `p[i]`
itself and never on `p[i+1]`), and when no candidate trough of the operation
lies strictly between the pair, `t` is the smallest index of the global
minimum of the samples over `[p[i], p[i+1])`. -/
theorem trough_invariant_after_operations (op : COp) (p q : Physio)
    (happ : applyC op p = Except.ok q)
    (hundo : op = COp.undoO →
      ∃ e, p.history.getLast? = some e ∧ e.opname ∈ relevantOps)
    (_hn : 2 ≤ (effectivePeaks q).length)
    (hb : ∀ i ∈ effectivePeaks q, i < q.data.length) :
    q.troughs.length = (effectivePeaks q).length - 1 ∧
    ∀ f, f + 1 < (effectivePeaks q).length →
      ((effectivePeaks q).getD f 0 ≤ q.troughs.getD f 0 ∧
        q.troughs.getD f 0 < (effectivePeaks q).getD (f + 1) 0) ∧
      ((∀ c ∈ candTroughs op p,
          ¬ ((effectivePeaks q).getD f 0 < c ∧ c < (effectivePeaks q).getD (f + 1) 0)) →
        (∀ j, (effectivePeaks q).getD f 0 ≤ j → j < (effectivePeaks q).getD (f + 1) 0 →
          q.data.getD (q.troughs.getD f 0) 0 ≤ q.data.getD j 0) ∧
        (∀ j, (effectivePeaks q).getD f 0 ≤ j → j < q.troughs.getD f 0 →
          q.data.getD (q.troughs.getD f 0) 0 < q.data.getD j 0)) := by
  obtain ⟨htr, _⟩ := applyC_troughs op p q happ hundo
  rw [htr]
  refine ⟨check_troughs_length _ _ _, ?_⟩
  intro f hf
  exact check_troughs_spec q.data (effectivePeaks q) (candTroughs op p)
    (effectivePeaks_sorted q) hb f hf

/-- Claim C1, counterexample to the stated interval: adding peak index 2 to a
record over samples `[1, 2, 3]` holding peak 0 yields effective peaks
`[0, 2]` and the single trough 0, which violates the claimed
`p[0] < t ≤ p[1]` (the minimum of the half-open slice `data[0:2]` sits at
the left peak itself). -/
theorem trough_invariant_counterexample :
    applyC (COp.addO 2)
        { data := [1, 2, 3], fs := none, peaks := [0], reject := [],
          troughs := [], history := [] } =
      Except.ok
        { data := [1, 2, 3], fs := none, peaks := [0, 2], reject := [],
          troughs := [0], history := [⟨"add_peaks", HArgs.addA 2⟩] } ∧
    (effectivePeaks
        { data := [1, 2, 3], fs := none, peaks := [0, 2], reject := [],
          troughs := [0], history := [⟨"add_peaks", HArgs.addA 2⟩] } = [0, 2] ∧
      ¬ (0 < 0 ∧ 0 ≤ 2)) := by
  refine ⟨by decide, by decide, by decide⟩

/-- Claim C1, witness: delete_peaks with an empty removal list on a concrete
record with peaks `[1, 3]` over `[0, 5, 1, 5, 0]` satisfies the amended
invariant. -/
theorem trough_invariant_witness :
    (2 ≤ (effectivePeaks (delete_peaks
        { data := [0, 5, 1, 5, 0], fs := some 1, peaks := [1, 3], reject := [],
          troughs := [2], history := [] } [])).length) ∧
    ((delete_peaks
        { data := [0, 5, 1, 5, 0], fs := some 1, peaks := [1, 3], reject := [],
          troughs := [2], history := [] } []).troughs.length =
      (effectivePeaks (delete_peaks
        { data := [0, 5, 1, 5, 0], fs := some 1, peaks := [1, 3], reject := [],
          troughs := [2], history := [] } [])).length - 1 ∧
    ∀ f, f + 1 < (effectivePeaks (delete_peaks
        { data := [0, 5, 1, 5, 0], fs := some 1, peaks := [1, 3], reject := [],
          troughs := [2], history := [] } [])).length →
      ((effectivePeaks (delete_peaks
          { data := [0, 5, 1, 5, 0], fs := some 1, peaks := [1, 3], reject := [],
            troughs := [2], history := [] } [])).getD f 0 ≤
        (delete_peaks
          { data := [0, 5, 1, 5, 0], fs := some 1, peaks := [1, 3], reject := [],
            troughs := [2], history := [] } []).troughs.getD f 0 ∧
        (delete_peaks
          { data := [0, 5, 1, 5, 0], fs := some 1, peaks := [1, 3], reject := [],
            troughs := [2], history := [] } []).troughs.getD f 0 <
        (effectivePeaks (delete_peaks
          { data := [0, 5, 1, 5, 0], fs := some 1, peaks := [1, 3], reject := [],
            troughs := [2], history := [] } [])).getD (f + 1) 0) ∧
      ((∀ c ∈ candTroughs (COp.deleteO [])
          { data := [0, 5, 1, 5, 0], fs := some 1, peaks := [1, 3], reject := [],
            troughs := [2], history := [] },
          ¬ ((effectivePeaks (delete_peaks
              { data := [0, 5, 1, 5, 0], fs := some 1, peaks := [1, 3], reject := [],
                troughs := [2], history := [] } [])).getD f 0 < c ∧
            c < (effectivePeaks (delete_peaks
              { data := [0, 5, 1, 5, 0], fs := some 1, peaks := [1, 3], reject := [],
                troughs := [2], history := [] } [])).getD (f + 1) 0)) →
        (∀ j, (effectivePeaks (delete_peaks
            { data := [0, 5, 1, 5, 0], fs := some 1, peaks := [1, 3], reject := [],
              troughs := [2], history := [] } [])).getD f 0 ≤ j →
          j < (effectivePeaks (delete_peaks
            { data := [0, 5, 1, 5, 0], fs := some 1, peaks := [1, 3], reject := [],
              troughs := [2], history := [] } [])).getD (f + 1) 0 →
          (delete_peaks
            { data := [0, 5, 1, 5, 0], fs := some 1, peaks := [1, 3], reject := [],
              troughs := [2], history := [] } []).data.getD
            ((delete_peaks
              { data := [0, 5, 1, 5, 0], fs := some 1, peaks := [1, 3], reject := [],
                troughs := [2], history := [] } []).troughs.getD f 0) 0 ≤
          (delete_peaks
            { data := [0, 5, 1, 5, 0], fs := some 1, peaks := [1, 3], reject := [],
              troughs := [2], history := [] } []).data.getD j 0) ∧
        (∀ j, (effectivePeaks (delete_peaks
            { data := [0, 5, 1, 5, 0], fs := some 1, peaks := [1, 3], reject := [],
              troughs := [2], history := [] } [])).getD f 0 ≤ j →
          j < (delete_peaks
            { data := [0, 5, 1, 5, 0], fs := some 1, peaks := [1, 3], reject := [],
              troughs := [2], history := [] } []).troughs.getD f 0 →
          (delete_peaks
            { data := [0, 5, 1, 5, 0], fs := some 1, peaks := [1, 3], reject := [],
              troughs := [2], history := [] } []).data.getD
            ((delete_peaks
              { data := [0, 5, 1, 5, 0], fs := some 1, peaks := [1, 3], reject := [],
                troughs := [2], history := [] } []).troughs.getD f 0) 0 <
          (delete_peaks
            { data := [0, 5, 1, 5, 0], fs := some 1, peaks := [1, 3], reject := [],
              troughs := [2], history := [] } []).data.getD j 0))) :=
  ⟨by decide,
    trough_invariant_after_operations (COp.deleteO [])
      { data := [0, 5, 1, 5, 0], fs := some 1, peaks := [1, 3], reject := [],
        troughs := [2], history := [] }
      (delete_peaks
        { data := [0, 5, 1, 5, 0], fs := some 1, peaks := [1, 3], reject := [],
          troughs := [2], history := [] } [])
      rfl (fun h => nomatch h) (by decide) (by decide)⟩

/-! ### Replay -/

theorem loadHistGo_append (fsys : List (String × List ℚ)) (cur : Option Physio)
    (l1 l2 : List HEntry) :
    loadHistGo fsys cur (l1 ++ l2) =
      match loadHistGo fsys cur l1 with
      | Except.error e => Except.error e
      | Except.ok c => loadHistGo fsys c l2 := by
  induction l1 generalizing cur with
  | nil => rfl
  | cons e rest ih =>
    rw [List.cons_append]
    cases hs : loadStep fsys cur e with
    | error err => simp [loadHistGo, hs]
    | ok c2 => simp [loadHistGo, hs, ih]

theorem applyBuild_history (op : BuildOp) (p q : Physio)
    (h : applyBuild op p = Except.ok q) :
    q.history = p.history ++ [buildEntry op] := by
  cases op with
  | filterB c m o =>
    rw [applyBuild, filter_physio] at h
    cases hfs : p.fs with
    | none => rw [hfs] at h; exact absurd h (by simp)
    | some fs =>
      rw [hfs] at h
      split at h
      · exact absurd h (by simp)
      · split at h
        · exact absurd h (by simp)
        · split at h
          · exact absurd h (by simp)
          · split at h
            · exact absurd h (by simp)
            · split at h
              · exact absurd h (by simp)
              · split at h
                · exact absurd h (by simp)
                · cases h; rfl
  | peakfindB t d =>
    rw [applyBuild, peakfind_physio] at h
    split at h
    · exact absurd h (by simp)
    · split at h
      · exact absurd h (by simp)
      · split at h
        · exact absurd h (by simp)
        · split at h
          · exact absurd h (by simp)
          · cases h; rfl
  | deleteB rm => cases h; rfl
  | rejectB rm => cases h; rfl

theorem loadStep_buildEntry (fsys : List (String × List ℚ)) (op : BuildOp) (p q : Physio)
    (h : applyBuild op p = Except.ok q) :
    loadStep fsys (some p) (buildEntry op) = Except.ok (some q) := by
  cases op with
  | filterB c m o =>
    have hop : filter_physio p c m o = Except.ok q := h
    calc loadStep fsys (some p) (buildEntry (BuildOp.filterB c m o))
        = (filter_physio p c m o).map some := rfl
      _ = Except.ok (some q) := by rw [hop]; rfl
  | peakfindB t d =>
    have hop : peakfind_physio p t d = Except.ok q := h
    calc loadStep fsys (some p) (buildEntry (BuildOp.peakfindB t d))
        = (peakfind_physio p t d).map some := rfl
      _ = Except.ok (some q) := by rw [hop]; rfl
  | deleteB rm =>
    have hop : Except.ok (delete_peaks p rm) = Except.ok q := h
    cases hop
    rfl
  | rejectB rm =>
    have hop : Except.ok (reject_peaks p rm) = Except.ok q := h
    cases hop
    rfl

theorem replay_ok_step (fsys : List (String × List ℚ)) (p q : Physio) (op : BuildOp)
    (hp : loadHistGo fsys none p.history = Except.ok (some p))
    (h : applyBuild op p = Except.ok q) :
    loadHistGo fsys none q.history = Except.ok (some q) := by
  rw [applyBuild_history op p q h, loadHistGo_append, hp]
  show loadHistGo fsys (some p) [buildEntry op] = _
  cases hs : loadStep fsys (some p) (buildEntry op) with
  | error err =>
    rw [loadStep_buildEntry fsys op p q h] at hs
    exact absurd hs (by simp)
  | ok c2 =>
    rw [loadStep_buildEntry fsys op p q h] at hs
    injection hs with hc
    simp [loadHistGo, loadStep_buildEntry fsys op p q h]

theorem load_replay_ok (fsys : List (String × List ℚ)) (src : String) (fs : Option ℚ)
    (p : Physio) (h : load_physio fsys src fs = Except.ok p) :
    loadHistGo fsys none p.history = Except.ok (some p) := by
  rw [load_physio] at h
  cases hf : fsys.find? (fun kv => decide (kv.1 = src)) with
  | none => rw [hf] at h; exact absurd h (by simp)
  | some kv =>
    rw [hf] at h
    cases h
    have hmem : kv ∈ fsys := List.mem_of_find?_eq_some hf
    have hkv0 := List.find?_some hf
    have hkv : kv.1 = src := by simpa using hkv0
    have hall : fsys.all (fun kv2 => decide (kv2.1 ≠ src)) = false := by
      refine List.all_eq_false.mpr ⟨kv, hmem, ?_⟩
      simp [hkv]
    show loadHistGo fsys none [⟨"load_physio", HArgs.loadA src fs⟩] = _
    have hstep : loadStep fsys none ⟨"load_physio", HArgs.loadA src fs⟩ =
        (load_physio fsys src fs).map some := by
      show (if nameHasLoad "load_physio" ∧ (none : Option Physio) = none then _ else _) = _
      rw [if_pos ⟨by decide, rfl⟩]
      show (if fsys.all (fun kv2 => decide (kv2.1 ≠ src)) = true then _ else _) = _
      rw [hall, if_neg (by decide : ¬ (false = true))]
      rfl
    simp only [loadHistGo, hstep, load_physio, hf]
    rfl

/-- Claim C2 (amended): a record built purely from a loader entry followed by
registered transformations that the package namespace can re-resolve
(filter_physio, peakfind_physio, delete_peaks, reject_peaks) is reproduced
exactly — samples, effective peaks, troughs, and the whole log — by
replaying its operation log from the original source alone.  `add_peaks`
has to be excluded: src/peakdet/__init__.py does not export it, so its log
entries cannot be re-resolved (see the counterexample). -/
theorem replay_reproduces_record (fsys : List (String × List ℚ)) (src : String)
    (fs : Option ℚ) (ops : List BuildOp) (X : Physio)
    (h : buildRecord fsys src fs ops = Except.ok X) :
    load_history fsys X.history = Except.ok (some X) := by
  rw [buildRecord] at h
  cases hl : load_physio fsys src fs with
  | error e => rw [hl] at h; exact absurd h (by simp)
  | ok p =>
    rw [hl] at h
    have hbase := load_replay_ok fsys src fs p hl
    rw [load_history]
    clear hl
    induction ops generalizing p with
    | nil =>
      have h2 : Except.ok p = Except.ok X := h
      cases h2
      exact hbase
    | cons op rest ih =>
      have h2 : (match applyBuild op p with
          | Except.error e => Except.error e
          | Except.ok q => buildGo q rest) = Except.ok X := h
      cases ha : applyBuild op p with
      | error e => rw [ha] at h2; exact absurd h2 (by simp)
      | ok q =>
        rw [ha] at h2
        exact ih q h2 (replay_ok_step fsys p q op hbase ha)

/-- Claim C2, counterexample: a record built with the registered correction
`add_peaks` cannot be replayed at all — `add_peaks` is missing from
src/peakdet/__init__.py, so `getattr(peakdet, 'add_peaks')` raises
AttributeError and the replay aborts instead of reproducing the record. -/
theorem replay_counterexample :
    add_peaks
        { data := [0, 1, 0], fs := some 10, peaks := [], reject := [], troughs := [],
          history := [⟨"load_physio", HArgs.loadA "a.txt" (some 10)⟩] } 1 =
      { data := [0, 1, 0], fs := some 10, peaks := [1], reject := [], troughs := [],
        history := [⟨"load_physio", HArgs.loadA "a.txt" (some 10)⟩,
          ⟨"add_peaks", HArgs.addA 1⟩] } ∧
    load_physio [("a.txt", [0, 1, 0])] "a.txt" (some 10) =
      Except.ok
        { data := [0, 1, 0], fs := some 10, peaks := [], reject := [], troughs := [],
          history := [⟨"load_physio", HArgs.loadA "a.txt" (some 10)⟩] } ∧
    load_history [("a.txt", [0, 1, 0])]
        [⟨"load_physio", HArgs.loadA "a.txt" (some 10)⟩, ⟨"add_peaks", HArgs.addA 1⟩] =
      Except.error (PDErr.unknownOperation "add_peaks") := by
  refine ⟨by decide, by decide, by decide⟩

-- Claim C2, witness: a concrete record built by loading a three-sample file
-- at 1000 Hz and bandpass-filtering it replays to itself.
unseal Rat.add Rat.mul Rat.inv Rat.sub in
theorem replay_reproduces_witness :
    buildRecord [("a.txt", [0, 1, 0])] "a.txt" (some 1000)
        [BuildOp.filterB [5, 15] "bandpass" 3] =
      Except.ok
        { data := [0, 1, 0], fs := some 1000, peaks := [], reject := [], troughs := [],
          history := [⟨"load_physio", HArgs.loadA "a.txt" (some 1000)⟩,
            ⟨"filter_physio", HArgs.filterA [5, 15] "bandpass" 3⟩] } ∧
    load_history [("a.txt", [0, 1, 0])]
        [⟨"load_physio", HArgs.loadA "a.txt" (some 1000)⟩,
          ⟨"filter_physio", HArgs.filterA [5, 15] "bandpass" 3⟩] =
      Except.ok
        (some
          { data := [0, 1, 0], fs := some 1000, peaks := [], reject := [], troughs := [],
            history := [⟨"load_physio", HArgs.loadA "a.txt" (some 1000)⟩,
              ⟨"filter_physio", HArgs.filterA [5, 15] "bandpass" 3⟩] }) := by
  exact ⟨by decide,
    replay_reproduces_record [("a.txt", [0, 1, 0])] "a.txt" (some 1000)
      [BuildOp.filterB [5, 15] "bandpass" 3]
      { data := [0, 1, 0], fs := some 1000, peaks := [], reject := [], troughs := [],
        history := [⟨"load_physio", HArgs.loadA "a.txt" (some 1000)⟩,
          ⟨"filter_physio", HArgs.filterA [5, 15] "bandpass" 3⟩] }
      (by decide)⟩

/-! ### Undo as an exact inverse -/

theorem setdiff1d_of_sorted {a : List ℕ} (b : List ℕ)
    (h : List.Sorted (fun x y => x < y) a) :
    setdiff1d a b = a.filter (fun x => decide (¬ x ∈ b)) := by
  have hf : List.Sorted (fun x y => x < y) (a.filter (fun x => decide (¬ x ∈ b))) :=
    sorted_lt_filter _ h
  rw [setdiff1d, npSortN, List.Sorted.insertionSort_eq (sorted_le_of_lt_nat hf),
    List.Nodup.dedup (nodup_of_sorted_lt hf)]

theorem setdiff1d_append_cancel (R rm : List ℕ)
    (hR : List.Sorted (fun x y => x < y) R)
    (hdisj : ∀ x ∈ rm, ¬ x ∈ R) :
    setdiff1d (R ++ rm) rm = R := by
  have hfilter : (R ++ rm).filter (fun x => decide (¬ x ∈ rm)) = R := by
    rw [List.filter_append]
    have h1 : R.filter (fun x => decide (¬ x ∈ rm)) = R :=
      List.filter_eq_self.mpr (fun a ha => decide_eq_true (fun hmem => hdisj a hmem ha))
    have h2 : rm.filter (fun x => decide (¬ x ∈ rm)) = [] := by
      simp
    rw [h1, h2, List.append_nil]
  show (npSortN ((R ++ rm).filter (fun x => decide (¬ x ∈ rm)))).dedup = R
  rw [hfilter]
  exact npSortN_dedup_eq_self hR

theorem zip_map_self (f : ℕ → ℕ) (x : List ℕ) :
    (x.map f).zip x = x.map (fun v => (f v, v)) := by
  induction x with
  | nil => rfl
  | cons v vs ih => simp [ih]

theorem npInsertGo_succ : ∀ (pv : List (ℕ × ℕ)) (a : List ℕ) (hd : ℕ) (k : ℕ),
    npInsertGo (hd :: a) pv (k + 1) = hd :: npInsertGo a pv k := by
  intro pv
  induction pv with
  | nil => intro a hd k; rfl
  | cons qv rest ih =>
    intro a hd k
    obtain ⟨q, v⟩ := qv
    show npInsertGo (List.insertIdx (q + (k + 1)) v (hd :: a)) rest (k + 2) = _
    rw [show q + (k + 1) = (q + k) + 1 from rfl, List.insertIdx_succ_cons]
    exact ih _ hd (k + 1)

theorem npInsertGo_cons : ∀ (pv : List (ℕ × ℕ)) (a : List ℕ) (hd : ℕ) (k : ℕ),
    npInsertGo (hd :: a) (pv.map (fun q => (q.1 + 1, q.2))) k = hd :: npInsertGo a pv k := by
  intro pv
  induction pv with
  | nil => intro a hd k; rfl
  | cons qv rest ih =>
    intro a hd k
    obtain ⟨q, v⟩ := qv
    show npInsertGo (List.insertIdx (q + 1 + k) v (hd :: a)) (rest.map _) (k + 1) = _
    rw [show q + 1 + k = (q + k) + 1 by omega, List.insertIdx_succ_cons]
    exact ih _ hd (k + 1)

theorem sorted_head_of_mem_min {x : List ℕ} {p : ℕ}
    (hx : List.Sorted (fun a b => a < b) x) (hmem : p ∈ x)
    (hmin : ∀ v ∈ x, p ≤ v) : ∃ xs, x = p :: xs := by
  cases x with
  | nil => cases hmem
  | cons a xs =>
    rcases List.mem_cons.mp hmem with h1 | h1
    · exact ⟨xs, by rw [h1]⟩
    · have hap : a < p := (List.sorted_cons.mp hx).1 p h1
      have hpa : p ≤ a := hmin a (List.mem_cons_self _ _)
      omega

theorem npInsertGo_restore : ∀ (P x : List ℕ),
    List.Sorted (fun a b => a < b) P → List.Sorted (fun a b => a < b) x →
    (∀ v ∈ x, v ∈ P) →
    npInsertGo (P.filter (fun y => decide (¬ y ∈ x)))
      (x.map (fun v => (searchsorted (P.filter (fun y => decide (¬ y ∈ x))) v, v))) 0 = P := by
  intro P
  induction P with
  | nil =>
    intro x _ _ hsub
    have hx : x = [] := List.eq_nil_iff_forall_not_mem.mpr
      (fun v hv => (List.not_mem_nil v) (hsub v hv))
    rw [hx]
    rfl
  | cons p P1 ihP =>
    intro x hP hx hsub
    have hP1 : List.Sorted (fun a b => a < b) P1 := (List.sorted_cons.mp hP).2
    have hpP1 : ∀ y ∈ P1, p < y := (List.sorted_cons.mp hP).1
    by_cases hpx : p ∈ x
    · -- the head of P is also the head of x
      have hmin : ∀ v ∈ x, p ≤ v := by
        intro v hv
        rcases List.mem_cons.mp (hsub v hv) with h1 | h1
        · omega
        · exact le_of_lt (hpP1 v h1)
      obtain ⟨xs, hxeq⟩ := sorted_head_of_mem_min hx hpx hmin
      subst hxeq
      have hxs : List.Sorted (fun a b => a < b) xs := (List.sorted_cons.mp hx).2
      have hpxs : ∀ v ∈ xs, p < v := (List.sorted_cons.mp hx).1
      have hsub1 : ∀ v ∈ xs, v ∈ P1 := by
        intro v hv
        rcases List.mem_cons.mp (hsub v (List.mem_cons_of_mem _ hv)) with h1 | h1
        · exact absurd h1.symm (ne_of_lt (hpxs v hv))
        · exact h1
      have hA : (p :: P1).filter (fun y => decide (¬ y ∈ p :: xs)) =
          P1.filter (fun y => decide (¬ y ∈ xs)) := by
        rw [List.filter_cons]
        rw [if_neg (by simp)]
        exact List.filter_congr (fun y hy => by
          have : y ≠ p := ne_of_gt (hpP1 y hy)
          simp [this])
      rw [hA]
      have hs0 : searchsorted (P1.filter (fun y => decide (¬ y ∈ xs))) p = 0 := by
        rw [searchsorted]
        refine List.countP_eq_zero.mpr ?_
        intro y hy
        have hyP1 : y ∈ P1 := List.mem_of_mem_filter hy
        have hpy := hpP1 y hyP1
        simp only [decide_eq_true_eq]
        omega
      rw [List.map_cons, hs0]
      show npInsertGo (List.insertIdx (0 + 0) p (P1.filter (fun y => decide (¬ y ∈ xs))))
        (xs.map _) 1 = _
      rw [show (0 + 0 : ℕ) = 0 from rfl]
      rw [List.insertIdx_zero]
      rw [npInsertGo_succ]
      rw [ihP xs hP1 hxs hsub1]
    · -- the head of P survives the deletion
      have hsub1 : ∀ v ∈ x, v ∈ P1 := by
        intro v hv
        rcases List.mem_cons.mp (hsub v hv) with h1 | h1
        · exact absurd h1 (fun hvp => hpx (hvp ▸ hv))
        · exact h1
      have hpv : ∀ v ∈ x, p < v := fun v hv => hpP1 v (hsub1 v hv)
      have hA : (p :: P1).filter (fun y => decide (¬ y ∈ x)) =
          p :: P1.filter (fun y => decide (¬ y ∈ x)) := by
        rw [List.filter_cons, if_pos (by simpa using hpx)]
      rw [hA]
      have hshift : ∀ v ∈ x,
          searchsorted (p :: P1.filter (fun y => decide (¬ y ∈ x))) v =
          searchsorted (P1.filter (fun y => decide (¬ y ∈ x))) v + 1 := by
        intro v hv
        rw [searchsorted, searchsorted, List.countP_cons]
        rw [if_pos (by simpa using hpv v hv)]
      have hmapeq : x.map (fun v =>
            (searchsorted (p :: P1.filter (fun y => decide (¬ y ∈ x))) v, v)) =
          (x.map (fun v =>
            (searchsorted (P1.filter (fun y => decide (¬ y ∈ x))) v, v))).map
            (fun q => (q.1 + 1, q.2)) := by
        rw [List.map_map]
        exact List.map_congr_left (fun v hv => by
          simp only [Function.comp]
          rw [hshift v hv])
      rw [hmapeq, npInsertGo_cons]
      rw [ihP x hP1 hx hsub1]

theorem searchsorted_mono (A : List ℕ) {u v : ℕ} (huv : u ≤ v) :
    searchsorted A u ≤ searchsorted A v := by
  rw [searchsorted, searchsorted]
  refine List.countP_mono_left ?_
  intro y _ hy
  have h1 : y < u := of_decide_eq_true hy
  exact decide_eq_true (lt_of_lt_of_le h1 huv)

theorem npInsert_restore (P x : List ℕ)
    (hP : List.Sorted (fun a b => a < b) P)
    (hx : List.Sorted (fun a b => a < b) x)
    (hsub : ∀ v ∈ x, v ∈ P) :
    npInsert (P.filter (fun y => decide (¬ y ∈ x)))
      (x.map (searchsorted (P.filter (fun y => decide (¬ y ∈ x))))) x = P := by
  rw [npInsert, zip_map_self]
  have hsortedpairs : List.Sorted (fun a b : ℕ × ℕ => a.1 ≤ b.1)
      (x.map (fun v => (searchsorted (P.filter (fun y => decide (¬ y ∈ x))) v, v))) := by
    rw [List.Sorted, List.pairwise_map]
    refine List.Pairwise.imp ?_ hx
    intro a b hab
    exact searchsorted_mono _ (le_of_lt hab)
  rw [List.Sorted.insertionSort_eq hsortedpairs]
  exact npInsertGo_restore P x hP hx hsub

theorem undo_reject_peaks (p : Physio) (rm : List ℕ)
    (hr : List.Sorted (fun a b => a < b) p.reject)
    (hdisj : ∀ x ∈ rm, ¬ x ∈ p.reject) :
    (undo (reject_peaks p rm)).peaks = p.peaks ∧
    (undo (reject_peaks p rm)).reject = p.reject ∧
    (undo (reject_peaks p rm)).history = p.history := by
  have hlast : (reject_peaks p rm).history.getLast? =
      some ⟨"reject_peaks", HArgs.removeA rm⟩ := List.getLast?_concat _
  refine ⟨?_, ?_, ?_⟩
  · simp only [undo, hlast]
    rw [if_neg (not_not_intro (by decide))]
    rfl
  · simp only [undo, hlast]
    rw [if_neg (not_not_intro (by decide))]
    show setdiff1d (p.reject ++ rm) rm = p.reject
    exact setdiff1d_append_cancel p.reject rm hr hdisj
  · simp only [undo, hlast]
    rw [if_neg (not_not_intro (by decide))]
    show (p.history ++ [(⟨"reject_peaks", HArgs.removeA rm⟩ : HEntry)]).dropLast = p.history
    exact List.dropLast_concat

theorem undo_delete_peaks (p : Physio) (rm : List ℕ)
    (hp : List.Sorted (fun a b => a < b) p.peaks)
    (hrm : List.Sorted (fun a b => a < b) rm)
    (hsub : ∀ v ∈ rm, v ∈ p.peaks) :
    (undo (delete_peaks p rm)).peaks = p.peaks ∧
    (undo (delete_peaks p rm)).reject = p.reject ∧
    (undo (delete_peaks p rm)).history = p.history := by
  have hlast : (delete_peaks p rm).history.getLast? =
      some ⟨"delete_peaks", HArgs.removeA rm⟩ := List.getLast?_concat _
  refine ⟨?_, ?_, ?_⟩
  · simp only [undo, hlast]
    rw [if_neg (not_not_intro (by decide))]
    show npInsert (setdiff1d p.peaks rm)
      (rm.map (searchsorted (setdiff1d p.peaks rm))) rm = p.peaks
    rw [setdiff1d_of_sorted rm hp]
    exact npInsert_restore p.peaks rm hp hrm hsub
  · simp only [undo, hlast]
    rw [if_neg (not_not_intro (by decide))]
    rfl
  · simp only [undo, hlast]
    rw [if_neg (not_not_intro (by decide))]
    show (p.history ++ [(⟨"delete_peaks", HArgs.removeA rm⟩ : HEntry)]).dropLast = p.history
    exact List.dropLast_concat

theorem undo_add_peaks (p : Physio) (i : ℕ) :
    (undo (add_peaks p i)).peaks = p.peaks ∧
    (undo (add_peaks p i)).reject = p.reject ∧
    (undo (add_peaks p i)).history = p.history := by
  have hlast : (add_peaks p i).history.getLast? =
      some ⟨"add_peaks", HArgs.addA i⟩ := List.getLast?_concat _
  refine ⟨?_, ?_, ?_⟩
  · simp only [undo, hlast]
    rw [if_neg (not_not_intro (by decide))]
    show (List.insertIdx (searchsorted p.peaks i) i p.peaks).eraseIdx
      (searchsorted (List.insertIdx (searchsorted p.peaks i) i p.peaks) i) = p.peaks
    have hk : searchsorted p.peaks i ≤ p.peaks.length := List.countP_le_length _
    have hperm : (List.insertIdx (searchsorted p.peaks i) i p.peaks).Perm (i :: p.peaks) :=
      List.perm_insertIdx i p.peaks hk
    have hss : searchsorted (List.insertIdx (searchsorted p.peaks i) i p.peaks) i =
        searchsorted p.peaks i := by
      rw [searchsorted, List.Perm.countP_eq _ hperm, List.countP_cons]
      simp [searchsorted]
    rw [hss]
    exact List.eraseIdx_insertIdx _ _
  · simp only [undo, hlast]
    rw [if_neg (not_not_intro (by decide))]
    rfl
  · simp only [undo, hlast]
    rw [if_neg (not_not_intro (by decide))]
    show (p.history ++ [(⟨"add_peaks", HArgs.addA i⟩ : HEntry)]).dropLast = p.history
    exact List.dropLast_concat

/-- Claim C3 (amended): for each correction `op` in reject / delete / insert,
applying `op` to a working record whose peaks and rejected arrays are
strictly increasing and then calling the editor's undo restores peaks,
rejected and the log exactly, provided the arguments are sane: rejected
indices fresh, deleted indices an increasing sub-collection of `peaks`.
Without these provisos the claim fails (see the counterexample:
re-rejecting an already rejected index and undoing erases it from
`rejected` entirely, because the undo inverts `np.append` with
`np.setdiff1d`). -/
theorem undo_inverse (op : EditOp) (p : Physio)
    (hp : List.Sorted (fun a b => a < b) p.peaks)
    (hr : List.Sorted (fun a b => a < b) p.reject)
    (hok : editOk op p) :
    (undo (applyEdit op p)).peaks = p.peaks ∧
    (undo (applyEdit op p)).reject = p.reject ∧
    (undo (applyEdit op p)).history = p.history := by
  cases op with
  | rejectE rm => exact undo_reject_peaks p rm hr hok
  | deleteE rm => exact undo_delete_peaks p rm hp hok.1 hok.2
  | insertE i => exact undo_add_peaks p i

/-- Claim C3, counterexample: on a record with `rejected = [1]`, rejecting
index 1 again (legal: 1 is still a peak) and undoing yields
`rejected = []`, not the original `[1]` — the undo removes every copy. -/
theorem undo_inverse_counterexample :
    (undo (applyEdit (EditOp.rejectE [1]) sampleRecord)).reject = [] ∧
    ¬ (undo (applyEdit (EditOp.rejectE [1]) sampleRecord)).reject = sampleRecord.reject := by
  refine ⟨by decide, by decide⟩

/-- Claim C3, witness: rejecting the fresh index 3 on a concrete record and
undoing restores peaks, rejected and history exactly. -/
theorem undo_inverse_witness :
    (List.Sorted (fun a b => a < b) sampleRecord.peaks ∧
      List.Sorted (fun a b => a < b) sampleRecord.reject ∧
      (∀ x ∈ ([3] : List ℕ), ¬ x ∈ sampleRecord.reject)) ∧
    ((undo (applyEdit (EditOp.rejectE [3]) sampleRecord)).peaks = sampleRecord.peaks ∧
      (undo (applyEdit (EditOp.rejectE [3]) sampleRecord)).reject = sampleRecord.reject ∧
      (undo (applyEdit (EditOp.rejectE [3]) sampleRecord)).history = sampleRecord.history) :=
  ⟨⟨by decide, by decide, by decide⟩,
    undo_inverse (EditOp.rejectE [3]) sampleRecord (by decide) (by decide)
      (by decide : ∀ x ∈ ([3] : List ℕ), ¬ x ∈ sampleRecord.reject)⟩

/-! ### The coarse-pass amplitude threshold -/

/-- Claim C4 (amended): in the coarse pass of extrema detection, a candidate
is retained only if its amplitude exceeds
`relative_threshold * (percentile 95 - percentile 5)` computed over the
whole waveform — the formula has no additive low-percentile term (see the
counterexample against the claimed
`low + relative_threshold * (high - low)`). -/
theorem get_extrema_threshold (data : List ℚ) (t : ℚ) (locs : List ℕ)
    (h : get_extrema data true t = Except.ok locs) :
    ∀ i ∈ locs, t * (percentile data 95 - percentile data 5) < data.getD i 0 := by
  rw [get_extrema] at h
  split at h
  · exact absurd h (by simp)
  · have h2 : Except.ok ((ampCandidates data true t).filter
        (fun i => decide (i ∈ slopeCandidates data true))) = Except.ok locs := h
    cases h2
    intro i hi
    have hamp : i ∈ ampCandidates data true t := List.mem_of_mem_filter hi
    rw [ampCandidates, if_pos rfl] at hamp
    have hpred := List.of_mem_filter hamp
    exact of_decide_eq_true hpred

-- Claim C4, counterexample: with samples [5, 5.9, 5, 100, 100] and relative
-- threshold 1/100, index 1 (amplitude 5.9) is retained by the detector, yet
-- 5.9 does not exceed the claimed threshold P5 + 0.01 * (P95 - P5) = 5.95.
unseal Rat.add Rat.mul Rat.inv Rat.sub in
theorem get_extrema_threshold_counterexample :
    get_extrema [5, 59 / 10, 5, 100, 100] true (1 / 100) = Except.ok [1] ∧
    ¬ (percentile [5, 59 / 10, 5, 100, 100] 5 +
        (1 / 100) * (percentile [5, 59 / 10, 5, 100, 100] 95 -
          percentile [5, 59 / 10, 5, 100, 100] 5) <
      ([5, 59 / 10, 5, 100, 100] : List ℚ).getD 1 0) := by
  refine ⟨by decide, by decide⟩

-- Claim C4, witness: the amended threshold bound holds at the concrete
-- detection above.
unseal Rat.add Rat.mul Rat.inv Rat.sub in
theorem get_extrema_threshold_witness :
    get_extrema [5, 59 / 10, 5, 100, 100] true (1 / 100) = Except.ok [1] ∧
    ∀ i ∈ ([1] : List ℕ),
      (1 / 100) * (percentile [5, 59 / 10, 5, 100, 100] 95 -
        percentile [5, 59 / 10, 5, 100, 100] 5) <
      ([5, 59 / 10, 5, 100, 100] : List ℚ).getD i 0 :=
  ⟨by decide,
    get_extrema_threshold [5, 59 / 10, 5, 100, 100] (1 / 100) [1] (by decide)⟩

/-! ### Trough tie-break, degenerate spacing, duplicate insertion -/

/-- Claim C5 (amended): when more than one candidate trough falls strictly
between a pair of consecutive accepted peaks, `check_troughs` keeps the
first candidate in array order — the one with the smallest index when the
candidate array is sorted — and discards the rest.  It does not pick the
minimum-amplitude candidate (see the counterexample). -/
theorem check_troughs_tiebreak (data : List ℚ) (pk tr : List ℕ) (f : ℕ)
    (hf : f + 1 < pk.length)
    (htr : List.Sorted (fun a b => a < b) tr)
    (hne : tr.filter (fun t => decide (pk.getD f 0 < t ∧ t < pk.getD (f + 1) 0)) ≠ []) :
    (check_troughs data pk tr).getD f 0 =
      (tr.filter (fun t => decide (pk.getD f 0 < t ∧ t < pk.getD (f + 1) 0))).headD 0 ∧
    ∀ c ∈ tr.filter (fun t => decide (pk.getD f 0 < t ∧ t < pk.getD (f + 1) 0)),
      (check_troughs data pk tr).getD f 0 ≤ c := by
  rw [check_troughs_getD data pk tr f hf, troughFor]
  cases hcase : tr.filter (fun t => decide (pk.getD f 0 < t ∧ t < pk.getD (f + 1) 0)) with
  | nil => exact absurd hcase hne
  | cons t ts =>
    have hsf : List.Sorted (fun a b => a < b)
        (tr.filter (fun t => decide (pk.getD f 0 < t ∧ t < pk.getD (f + 1) 0))) :=
      sorted_lt_filter _ htr
    rw [hcase] at hsf
    refine ⟨rfl, ?_⟩
    intro c hc
    rcases List.mem_cons.mp hc with h1 | h1
    · rw [h1]
    · exact le_of_lt ((List.sorted_cons.mp hsf).1 c h1)

-- Claim C5, counterexample: between peaks 1 and 4 of [0, 10, 5, 3, 10] the
-- candidate troughs are 2 (amplitude 5) and 3 (amplitude 3); the source
-- keeps index 2, though index 3 has the smaller amplitude.
unseal Rat.add Rat.mul Rat.inv Rat.sub in
theorem check_troughs_tiebreak_counterexample :
    check_troughs [0, 10, 5, 3, 10] [1, 4] [2, 3] = [2] ∧
    ([0, 10, 5, 3, 10] : List ℚ).getD 3 0 < ([0, 10, 5, 3, 10] : List ℚ).getD 2 0 := by
  refine ⟨by decide, by decide⟩

-- Claim C5, witness: the amended tie-break at the concrete input above.
unseal Rat.add Rat.mul Rat.inv Rat.sub in
theorem check_troughs_tiebreak_witness :
    (0 + 1 < ([1, 4] : List ℕ).length ∧
      ([2, 3] : List ℕ).filter
        (fun t => decide (([1, 4] : List ℕ).getD 0 0 < t ∧
          t < ([1, 4] : List ℕ).getD 1 0)) ≠ []) ∧
    ((check_troughs [0, 10, 5, 3, 10] [1, 4] [2, 3]).getD 0 0 =
      (([2, 3] : List ℕ).filter
        (fun t => decide (([1, 4] : List ℕ).getD 0 0 < t ∧
          t < ([1, 4] : List ℕ).getD 1 0))).headD 0 ∧
      ∀ c ∈ ([2, 3] : List ℕ).filter
        (fun t => decide (([1, 4] : List ℕ).getD 0 0 < t ∧
          t < ([1, 4] : List ℕ).getD 1 0)),
        (check_troughs [0, 10, 5, 3, 10] [1, 4] [2, 3]).getD 0 0 ≤ c) :=
  ⟨⟨by decide, by decide⟩,
    check_troughs_tiebreak [0, 10, 5, 3, 10] [1, 4] [2, 3] 0 (by decide) (by decide)
      (by decide)⟩

-- Claim C6: on samples [0, 5, 0, 0, 0] with caller-supplied distance 1 and
-- the default threshold 0.2, the coarse pass keeps exactly one candidate and
-- the refinement spacing np.diff(locs).mean() is undefined (NaN in the
-- source, none here); no insufficient-extrema error exists anywhere in the
-- code to be raised.
unseal Rat.add Rat.mul Rat.inv Rat.sub in
theorem insufficient_extrema_behavior :
    find_peaks_scipy [0, 5, 0, 0, 0] 1 (coarseThresh [0, 5, 0, 0, 0] (1 / 5)) =
      Except.ok ([1], [5]) ∧
    ([1] : List ℕ).length < 2 ∧
    diffMean [1] = none := by
  refine ⟨by decide, by decide, by decide⟩

/-- Claim C7 (amended): `add_peaks` with an index already present in `peaks`
is not a no-op: the index is inserted again at its leftmost sorted position
(its multiplicity grows by one), a log entry is appended, and only the
samples stay untouched. -/
theorem add_peaks_duplicate (p : Physio) (x : ℕ) (_hx : x ∈ p.peaks) :
    (add_peaks p x).peaks.count x = p.peaks.count x + 1 ∧
    ¬ (add_peaks p x).peaks = p.peaks ∧
    (add_peaks p x).history = p.history ++ [⟨"add_peaks", HArgs.addA x⟩] ∧
    (add_peaks p x).data = p.data := by
  have hk : searchsorted p.peaks x ≤ p.peaks.length := List.countP_le_length _
  have hperm : (List.insertIdx (searchsorted p.peaks x) x p.peaks).Perm (x :: p.peaks) :=
    List.perm_insertIdx x p.peaks hk
  have hcount : (add_peaks p x).peaks.count x = p.peaks.count x + 1 := by
    show (List.insertIdx (searchsorted p.peaks x) x p.peaks).count x = _
    rw [List.Perm.count_eq hperm, List.count_cons_self]
  refine ⟨hcount, ?_, rfl, rfl⟩
  intro heq
  have hlen : (add_peaks p x).peaks.length = p.peaks.length + 1 := by
    show (List.insertIdx (searchsorted p.peaks x) x p.peaks).length = _
    exact List.length_insertIdx _ _ hk
  rw [heq] at hlen
  omega

-- Claim C7, counterexample: inserting the already-present index 3 changes
-- the record (peaks gains a duplicate) and appends a log entry.
unseal Rat.add Rat.mul Rat.inv Rat.sub in
theorem add_peaks_duplicate_counterexample :
    (add_peaks sampleRecord 3).peaks = [1, 3, 3] ∧
    ¬ (add_peaks sampleRecord 3).peaks = sampleRecord.peaks ∧
    ¬ (add_peaks sampleRecord 3).history = sampleRecord.history := by
  refine ⟨by decide, by decide, by decide⟩

-- Claim C7, witness: the amended statement at the concrete record.
unseal Rat.add Rat.mul Rat.inv Rat.sub in
theorem add_peaks_duplicate_witness :
    (3 ∈ sampleRecord.peaks) ∧
    ((add_peaks sampleRecord 3).peaks.count 3 = sampleRecord.peaks.count 3 + 1 ∧
      ¬ (add_peaks sampleRecord 3).peaks = sampleRecord.peaks ∧
      (add_peaks sampleRecord 3).history =
        sampleRecord.history ++ [⟨"add_peaks", HArgs.addA 3⟩] ∧
      (add_peaks sampleRecord 3).data = sampleRecord.data) :=
  ⟨by decide, add_peaks_duplicate sampleRecord 3 (by decide)⟩

/-! ### Nyquist boundary and cutoff arity -/

/-- Claim C8 (amended): for a bandpass filter on a record with a known
positive sampling rate fs, `filter_physio` raises its Nyquist ValueError
exactly when some cutoff exceeds fs/2 strictly; a cutoff pair strictly
inside (0, fs/2) passes every validation and yields a record of the same
length.  A cutoff exactly at fs/2 does NOT trigger the repo's Nyquist check
(`any(cutoffs / (fs * 0.5) > 1)` is false at equality) — the failure there
comes from the filter-design routine's own validation, a different error
(see the counterexample). -/
theorem filter_nyquist (p : Physio) (fs : ℚ) (cutoffs : List ℚ)
    (hfs : p.fs = some fs) (hpos : 0 < fs) (hlen : cutoffs.length = 2) :
    ((∃ c ∈ cutoffs, fs / 2 < c) →
      filter_physio p cutoffs "bandpass" 3 = Except.error PDErr.nyquist) ∧
    ((∀ c ∈ cutoffs, 0 < c ∧ c < fs / 2) →
      ∃ r, filter_physio p cutoffs "bandpass" 3 = Except.ok r ∧
        r.data.length = p.data.length) := by
  have hhalf : 0 < fs * (1 / 2) := by positivity
  have hmul : fs * (1 / 2) = fs / 2 := by ring
  simp only [filter_physio, hfs]
  rw [if_neg (not_not_intro (by decide))]
  rw [if_neg (fun hc => absurd hc.1 (by decide))]
  rw [if_neg (fun hc => hc.2 hlen)]
  constructor
  · intro ⟨c, hc, hgt⟩
    have hany : (cutoffs.map (fun c => c / (fs * (1 / 2)))).any
        (fun w => decide (1 < w)) = true := by
      rw [List.any_eq_true]
      refine ⟨c / (fs * (1 / 2)), List.mem_map_of_mem _ hc, ?_⟩
      refine decide_eq_true ?_
      rw [hmul]
      exact (one_lt_div (by positivity)).mpr hgt
    rw [if_pos hany]
  · intro hin
    have hnoany : (cutoffs.map (fun c => c / (fs * (1 / 2)))).any
        (fun w => decide (1 < w)) = false := by
      rw [List.any_eq_false]
      intro w hw
      obtain ⟨c, hc, hceq⟩ := List.mem_map.mp hw
      subst hceq
      simp only [decide_eq_true_eq]
      rw [hmul]
      intro hcontra
      have h1 := (hin c hc).2
      have h2 := (one_lt_div (by positivity : (0:ℚ) < fs / 2)).mp hcontra
      exact absurd h1 (not_lt.mpr (le_of_lt h2))
    rw [if_neg (by rw [hnoany]; exact (by decide : ¬ (false = true)))]
    have hall : (cutoffs.map (fun c => c / (fs * (1 / 2)))).all
        (fun w => decide (0 < w ∧ w < 1)) = true := by
      rw [List.all_eq_true]
      intro w hw
      obtain ⟨c, hc, hceq⟩ := List.mem_map.mp hw
      subst hceq
      refine decide_eq_true ?_
      constructor
      · exact div_pos (hin c hc).1 hhalf
      · rw [hmul]
        exact (div_lt_one (by positivity)).mpr (hin c hc).2
    rw [if_neg (not_not_intro hall)]
    exact ⟨_, rfl, rfl⟩

-- Claim C8, counterexample: at fs = 1000 Hz, the cutoff pair [5, 500] has
-- its upper bound exactly at Nyquist, yet the repo's Nyquist check does not
-- fire — the error comes from the modelled filter-design validation and is
-- a different error; and [0, 15], though strictly below Nyquist, fails too.
unseal Rat.add Rat.mul Rat.inv Rat.sub in
theorem filter_nyquist_counterexample :
    filter_physio recordHz [5, 500] "bandpass" 3 = Except.error PDErr.butterCritical ∧
    ¬ (PDErr.butterCritical = PDErr.nyquist) ∧
    filter_physio recordHz [0, 15] "bandpass" 3 = Except.error PDErr.butterCritical := by
  refine ⟨by decide, by decide, by decide⟩

-- Claim C8, witness: at fs = 1000 Hz, the amended dichotomy holds for the
-- in-band pair [5, 15].
unseal Rat.add Rat.mul Rat.inv Rat.sub in
theorem filter_nyquist_witness :
    (recordHz.fs = some 1000 ∧ (0 : ℚ) < 1000 ∧ ([5, 15] : List ℚ).length = 2) ∧
    (((∃ c ∈ ([5, 15] : List ℚ), (1000 : ℚ) / 2 < c) →
      filter_physio recordHz [5, 15] "bandpass" 3 = Except.error PDErr.nyquist) ∧
    ((∀ c ∈ ([5, 15] : List ℚ), 0 < c ∧ c < (1000 : ℚ) / 2) →
      ∃ r, filter_physio recordHz [5, 15] "bandpass" 3 = Except.ok r ∧
        r.data.length = recordHz.data.length)) :=
  ⟨⟨by decide, by decide, by decide⟩,
    filter_nyquist recordHz 1000 [5, 15] (by decide) (by decide) (by decide)⟩

/-- Claim C9: replay fails fast, producing no partial record.  A first
loader entry whose source path resolves to no file aborts with the
FileNotFoundError whose message distinguishes the absolute-path cause from
the different-working-directory cause; a later entry whose name the package
namespace does not export aborts with the AttributeError (unknown
operation). -/
theorem replay_failure_diagnostics :
    (∀ (fsys : List (String × List ℚ)) (src : String) (fs : Option ℚ)
      (rest : List HEntry),
      (∀ kv ∈ fsys, kv.1 ≠ src) →
      ∃ msg, load_history fsys (⟨"load_physio", HArgs.loadA src fs⟩ :: rest) =
          Except.error (PDErr.fileNotFound msg) ∧
        (startsWithSlash src = true → msg = absPathMsg) ∧
        (startsWithSlash src = false → msg = diffDirMsg) ∧
        ¬ absPathMsg = diffDirMsg) ∧
    (∀ (fsys : List (String × List ℚ)) (h1 : List HEntry) (e : HEntry)
      (h2 : List HEntry) (d : Physio),
      loadHistGo fsys none h1 = Except.ok (some d) →
      ¬ e.opname ∈ registeredNames →
      load_history fsys (h1 ++ e :: h2) =
        Except.error (PDErr.unknownOperation e.opname)) := by
  constructor
  · intro fsys src fs rest hnone
    have hall : fsys.all (fun kv2 => decide (kv2.1 ≠ src)) = true := by
      rw [List.all_eq_true]
      intro kv hkv
      exact decide_eq_true (hnone kv hkv)
    have hstep : loadStep fsys none ⟨"load_physio", HArgs.loadA src fs⟩ =
        (if startsWithSlash src then Except.error (PDErr.fileNotFound absPathMsg)
          else Except.error (PDErr.fileNotFound diffDirMsg)) := by
      show (if nameHasLoad "load_physio" ∧ (none : Option Physio) = none
        then _ else _) = _
      rw [if_pos ⟨by decide, rfl⟩]
      show (if fsys.all (fun kv2 => decide (kv2.1 ≠ src)) = true then _ else _) = _
      rw [if_pos hall]
    cases hslash : startsWithSlash src with
    | true =>
      refine ⟨absPathMsg, ?_, fun _ => rfl,
        fun hfalse => absurd hfalse (by decide), by decide⟩
      show (match loadStep fsys none ⟨"load_physio", HArgs.loadA src fs⟩ with
        | Except.error err => Except.error err
        | Except.ok c2 => loadHistGo fsys c2 rest) = _
      rw [hstep, if_pos (by simp [hslash])]
    | false =>
      refine ⟨diffDirMsg, ?_,
        fun htrue => absurd htrue (by decide), fun _ => rfl,
        by decide⟩
      show (match loadStep fsys none ⟨"load_physio", HArgs.loadA src fs⟩ with
        | Except.error err => Except.error err
        | Except.ok c2 => loadHistGo fsys c2 rest) = _
      rw [hstep, if_neg (by simp [hslash])]
  · intro fsys h1 e h2 d hpre hun
    rw [load_history, loadHistGo_append, hpre]
    have hstep : loadStep fsys (some d) e = Except.error (PDErr.unknownOperation e.opname) := by
      rw [loadStep]
      rw [if_neg (fun hc => by cases hc.2)]
      rw [if_pos hun]
    show (match loadStep fsys (some d) e with
      | Except.error err => Except.error err
      | Except.ok c2 => loadHistGo fsys c2 h2) = _
    rw [hstep]

-- Claim C9, witness: an absolute path aborts with the absolute-path
-- message, and an unknown operation name aborts the replay after a
-- successful load.
unseal Rat.add Rat.mul Rat.inv Rat.sub in
theorem replay_failure_diagnostics_witness :
    ((∀ kv ∈ ([] : List (String × List ℚ)), kv.1 ≠ "/tmp/a.txt") ∧
      (∃ msg, load_history [] [⟨"load_physio", HArgs.loadA "/tmp/a.txt" none⟩] =
          Except.error (PDErr.fileNotFound msg) ∧
        (startsWithSlash "/tmp/a.txt" = true → msg = absPathMsg) ∧
        (startsWithSlash "/tmp/a.txt" = false → msg = diffDirMsg) ∧
        ¬ absPathMsg = diffDirMsg)) ∧
    load_history [("a.txt", [0, 1, 0])]
        ([⟨"load_physio", HArgs.loadA "a.txt" (some 10)⟩] ++
          ⟨"frobnicate_physio", HArgs.addA 0⟩ :: []) =
      Except.error (PDErr.unknownOperation "frobnicate_physio") :=
  ⟨⟨by decide,
    replay_failure_diagnostics.1 [] "/tmp/a.txt" none [] (by decide)⟩,
    replay_failure_diagnostics.2 [("a.txt", [0, 1, 0])]
      [⟨"load_physio", HArgs.loadA "a.txt" (some 10)⟩]
      ⟨"frobnicate_physio", HArgs.addA 0⟩ []
      { data := [0, 1, 0], fs := some 10, peaks := [], reject := [], troughs := [],
        history := [⟨"load_physio", HArgs.loadA "a.txt" (some 10)⟩] }
      (by decide) (by decide)⟩

/-- Claim C10: for every call to filter_physio, a method outside the four
supported strings, a lowpass/highpass call without exactly one cutoff, or a
bandpass/bandstop call without exactly two cutoffs raises a ValueError
during validation — before any filter is designed or applied, so no new
record is produced (the only errors reachable are the pre-filter validation
ones: the missing-sampling-rate, bad-method and bad-arity checks, in the
source all ValueErrors raised at the head of the function). -/
theorem filter_cutoff_arity (p : Physio) (cutoffs : List ℚ) (method : String) (order : ℕ)
    (hbad : (¬ method ∈ valid_methods) ∨
      ((method = "lowpass" ∨ method = "highpass") ∧ cutoffs.length ≠ 1) ∨
      ((method = "bandpass" ∨ method = "bandstop") ∧ cutoffs.length ≠ 2)) :
    ∃ e, filter_physio p cutoffs method order = Except.error e ∧
      (e = PDErr.missingFs ∨ e = PDErr.badMethod ∨ e = PDErr.badArity) := by
  cases hfs : p.fs with
  | none =>
    refine ⟨PDErr.missingFs, ?_, Or.inl rfl⟩
    simp only [filter_physio, hfs]
  | some fs =>
    simp only [filter_physio, hfs]
    by_cases hm : method ∈ valid_methods
    · rw [if_neg (not_not_intro hm)]
      rcases hbad with h | h | h
      · exact absurd hm h
      · rw [if_pos h]
        exact ⟨PDErr.badArity, rfl, Or.inr (Or.inr rfl)⟩
      · by_cases h2 : (method = "lowpass" ∨ method = "highpass") ∧ cutoffs.length ≠ 1
        · rw [if_pos h2]
          exact ⟨PDErr.badArity, rfl, Or.inr (Or.inr rfl)⟩
        · rw [if_neg h2, if_pos h]
          exact ⟨PDErr.badArity, rfl, Or.inr (Or.inr rfl)⟩
    · rw [if_pos hm]
      exact ⟨PDErr.badMethod, rfl, Or.inr (Or.inl rfl)⟩

-- Claim C10, witness: a bandpass call with three cutoffs is rejected during
-- validation.
unseal Rat.add Rat.mul Rat.inv Rat.sub in
theorem filter_cutoff_arity_witness :
    ((¬ "bandpass" ∈ valid_methods) ∨
      (("bandpass" = "lowpass" ∨ "bandpass" = "highpass") ∧
        ([1, 2, 3] : List ℚ).length ≠ 1) ∨
      (("bandpass" = "bandpass" ∨ "bandpass" = "bandstop") ∧
        ([1, 2, 3] : List ℚ).length ≠ 2)) ∧
    ∃ e, filter_physio recordHz [1, 2, 3] "bandpass" 3 = Except.error e ∧
      (e = PDErr.missingFs ∨ e = PDErr.badMethod ∨ e = PDErr.badArity) :=
  ⟨by decide,
    filter_cutoff_arity recordHz [1, 2, 3] "bandpass" 3 (by decide)⟩

end Peakdet
